import Mathlib

/-!
Verification development for the boomer text-corruption pipeline
(`boomer/api.py`).  Python strings are embedded as `List Char`, the
process-wide random generator as an explicit state of type `Nat`
threaded through every operation, and fallible operations (the
`ValueError` of `random.choices` on zero total weight, `random.choice`
on an empty sequence, `random.randint` on an empty range, unbound local
variables) return `Except Unit`.
-/

namespace Boomer

/-- Python strings are embedded as lists of characters. -/
abbrev PyStr := List Char

/-- Shorthand turning a Lean string literal into the embedded form. -/
def S (s : String) : PyStr := s.data

/-- The apostrophe character (U+0027). -/
def apo : Char := Char.ofNat 39

/-- Builds the embedded form of a word containing one apostrophe,
from the parts before and after it. -/
def apoS (a b : String) : PyStr := a.data ++ [apo] ++ b.data

/-! ### Character case, mirroring the Python `str` methods on the
character repertoire used by the rule tables (ASCII plus the accented
letters appearing in `api.py`). -/

/-- Lower/upper pairs for the accented letters used by the rule tables. -/
def accentCasePairs : List (Char × Char) :=
  [('à', 'À'), ('â', 'Â'), ('è', 'È'), ('é', 'É'), ('ê', 'Ê'), ('ë', 'Ë'),
   ('ï', 'Ï'), ('ö', 'Ö'), ('ô', 'Ô'), ('ù', 'Ù'), ('ü', 'Ü'), ('ç', 'Ç')]

/-- Embeds `str.lower` at the character level. -/
def pyLowerChar (c : Char) : Char :=
  if 'A' ≤ c ∧ c ≤ 'Z' then Char.ofNat (c.toNat + 32)
  else match accentCasePairs.find? (fun p => p.2 = c) with
       | some p => p.1
       | none => c

/-- Embeds `str.upper` at the character level. -/
def pyUpperChar (c : Char) : Char :=
  if 'a' ≤ c ∧ c ≤ 'z' then Char.ofNat (c.toNat - 32)
  else match accentCasePairs.find? (fun p => p.1 = c) with
       | some p => p.2
       | none => c

/-- Embeds the character predicate `str.islower`. -/
def pyIsLowerChar (c : Char) : Bool :=
  ('a' ≤ c ∧ c ≤ 'z') ∨ accentCasePairs.any (fun p => p.1 = c)

/-- Embeds the character predicate `str.isupper`. -/
def pyIsUpperChar (c : Char) : Bool :=
  ('A' ≤ c ∧ c ≤ 'Z') ∨ accentCasePairs.any (fun p => p.2 = c)

/-- A character is cased when it is lowercase or uppercase. -/
def pyIsCased (c : Char) : Bool := pyIsLowerChar c || pyIsUpperChar c

/-- Embeds the Python whitespace set stripped by `str.strip`. -/
def pyIsSpace (c : Char) : Bool :=
  c = ' ' ∨ c = '\t' ∨ c = '\n' ∨ c = '\r' ∨ c = Char.ofNat 11 ∨ c = Char.ofNat 12

/-- Embeds `str.lower`. -/
def strLower (s : PyStr) : PyStr := s.map pyLowerChar

/-- Embeds `str.upper`. -/
def strUpper (s : PyStr) : PyStr := s.map pyUpperChar

/-- Embeds `str.islower`: at least one cased character and no
uppercase character. -/
def strIsLower (s : PyStr) : Bool :=
  s.any pyIsCased && !(s.any pyIsUpperChar)

/-- Embeds `str.isupper`: at least one cased character and no
lowercase character. -/
def strIsUpper (s : PyStr) : Bool :=
  s.any pyIsCased && !(s.any pyIsLowerChar)

/-- Worker for `strIsTitle`: the flag records whether the previous
character was cased. -/
def strIsTitleGo (prevCased : Bool) : PyStr → Bool
  | [] => true
  | c :: rest =>
    if pyIsUpperChar c then !prevCased && strIsTitleGo true rest
    else if pyIsLowerChar c then prevCased && strIsTitleGo true rest
    else strIsTitleGo false rest

/-- Embeds `str.istitle`: uppercase characters only follow uncased
ones, lowercase characters only follow cased ones, and at least one
character is cased. -/
def strIsTitle (s : PyStr) : Bool :=
  s.any pyIsCased && strIsTitleGo false s

/-- Embeds `str.capitalize`: first character uppercased, the rest
lowercased. -/
def strCapitalize : PyStr → PyStr
  | [] => []
  | c :: rest => pyUpperChar c :: rest.map pyLowerChar

/-! ### `str.strip` -/

/-- Embeds the left half of `str.strip`. -/
def stripLeft (s : PyStr) : PyStr := s.dropWhile pyIsSpace

/-- Embeds the right half of `str.strip`. -/
def stripRight (s : PyStr) : PyStr := (s.reverse.dropWhile pyIsSpace).reverse

/-- Embeds `str.strip`. -/
def pyStrip (s : PyStr) : PyStr := stripRight (stripLeft s)

/-! ### The random generator

All randomness in `api.py` flows through the process-wide `random`
module.  It is embedded as an explicit state of type `Nat` with a
linear-congruential step; the claims under verification depend only on
the generator being a deterministic function of its state, on the
weighted boolean being constantly true or false at extreme weight
pairs, and on `random.choices` raising `ValueError` when the weights
sum to zero. -/

/-- Generator state. -/
abbrev G := Nat

/-- One draw from the generator: returns a natural number and the
successor state. -/
def randNat (g : G) : Nat × G :=
  let g2 := (g * 1103515245 + 12345) % 4294967296
  (g2, g2)

/-- Embeds `random.seed(s)`: seeding is a function of the seed alone. -/
def seedOf (s : Int) : G := s.natAbs % 4294967296

/-- Embeds `_Algo._random_bool`, that is
`random.choices([True, False], true_false_weights)[0]`: the draw is
true with probability `w.1 / (w.1 + w.2)`, and a weight pair summing
to zero raises `ValueError`. -/
def randBool (w : Nat × Nat) (g : G) : Except Unit (Bool × G) :=
  if w.1 + w.2 = 0 then .error ()
  else
    let (x, g2) := randNat g
    .ok (decide (x % (w.1 + w.2) < w.1), g2)

/-- Embeds `random.randint(a, b)` (inclusive bounds; an empty range
raises `ValueError`). -/
def pyRandint (a b : Nat) (g : G) : Except Unit (Nat × G) :=
  if b < a then .error ()
  else
    let (x, g2) := randNat g
    .ok (a + x % (b - a + 1), g2)

/-- Embeds `random.choice(xs)` (an empty sequence raises
`IndexError`). -/
def pyChoice {α : Type} (xs : List α) (g : G) : Except Unit (α × G) :=
  if h : xs.length = 0 then .error ()
  else
    let (x, g2) := randNat g
    .ok (xs.get ⟨x % xs.length, Nat.mod_lt x (Nat.pos_of_ne_zero h)⟩, g2)

/-- Embeds `_Algo._choose_other_in_set`:
`random.choice(list(set - {item}))`.  Python set literals are embedded
as lists in declaration order, so the set difference is a filter. -/
def chooseOtherInSet (item : PyStr) (s : List PyStr) (g : G) :
    Except Unit (PyStr × G) :=
  pyChoice (s.filter (fun x => x ≠ item)) g

/-! ### Tokens (`_Token`) -/

/-- Embeds `_Token`: a mutable piece of text together with a
trailing-space flag. -/
structure Token where
  text : PyStr
  hasTrailingSpace : Bool
deriving DecidableEq

/-- Embeds the `_Token.lower` property. -/
def Token.lower (t : Token) : PyStr := strLower t.text

/-- Embeds `len(t)`. -/
def Token.len (t : Token) : Nat := t.text.length

/-- Embeds `_Token.starts_with_lower`. -/
def Token.startsWithLower (t : Token) : Bool :=
  match t.text with
  | [] => false
  | c :: _ => pyIsLowerChar c

/-- Embeds `_Token.starts_with_upper`. -/
def Token.startsWithUpper (t : Token) : Bool :=
  match t.text with
  | [] => false
  | c :: _ => pyIsUpperChar c

/-- Embeds `_Token.replace_keep_form`: keeps the all-lower, all-upper
or title casing pattern of the current text when substituting. -/
def Token.replaceKeepForm (t : Token) (s : PyStr) : Token :=
  if strIsLower t.text then { t with text := strLower s }
  else if strIsUpper t.text then { t with text := strUpper s }
  else if strIsTitle t.text then { t with text := strCapitalize s }
  else { t with text := s }

/-- Embeds `_Token.replace_suffix(suffix, rem_len)` (with the default
`keep_form=True`).  The Python slice `text[:-rem_len]` is empty when
`rem_len` is zero. -/
def Token.replaceSuffix (t : Token) (suffix : PyStr) (remLen : Nat) : Token :=
  let kept := if remLen = 0 then [] else t.text.take (t.text.length - remLen)
  t.replaceKeepForm (kept ++ suffix)

/-- Embeds `_Token.replace_prefix(rep, rem_len)` (with the default
`keep_form=True`). -/
def Token.replacePre (t : Token) (rep : PyStr) (remLen : Nat) : Token :=
  t.replaceKeepForm (rep ++ t.text.drop remLen)

/-! ### Tokenizer and detokenizer (`_tokenize`, `_textize`) -/

/-- Embeds `text.split(' ')`: split on every single space, keeping
empty fragments (Python `''.split(' ')` is `['']`). -/
def splitSpace : PyStr → List PyStr
  | [] => [[]]
  | c :: rest =>
    if c = ' ' then [] :: splitSpace rest
    else
      match splitSpace rest with
      | f :: fs => (c :: f) :: fs
      | [] => [[c]]

/-- The punctuation class of the `_tokenize` regular expression
`[,.:;!?\])}]`. -/
def isPunctChar (c : Char) : Bool :=
  c = ',' ∨ c = '.' ∨ c = ':' ∨ c = ';' ∨ c = '!' ∨ c = '?' ∨
  c = ']' ∨ c = ')' ∨ c = '}'

/-- Worker for `matchPunct`, trying the split positions for the first
group from the longest candidate down (the greedy `(.+)`).  At split
width `i + 1` the first group is `tt.take (i + 1)`, which must not
contain a newline (`.` does not match one), the second group is the
maximal punctuation run that follows, and the anchor `$` accepts
either the end of the string or a position just before a final
newline. -/
def matchPunctFrom (tt : PyStr) : Nat → Option (PyStr × PyStr)
  | 0 => none
  | i + 1 =>
    let a := tt.take (i + 1)
    let b := tt.drop (i + 1)
    let p := b.takeWhile isPunctChar
    let r := b.dropWhile isPunctChar
    if '\n' ∉ a ∧ p ≠ [] ∧ (r = [] ∨ r = ['\n']) then some (a, p)
    else matchPunctFrom tt i

/-- Embeds `re.match(r'(.+)([,.:;!?\])}]+)$', tt)`, returning the two
groups on success. -/
def matchPunct (tt : PyStr) : Option (PyStr × PyStr) :=
  matchPunctFrom tt (tt.length - 1)

/-- The tokens produced by one space-separated fragment: a word token
followed by a punctuation token when the punctuation match succeeds,
one token otherwise. -/
def fragTokens (tt : PyStr) : List Token :=
  match matchPunct tt with
  | some (a, b) => [⟨a, false⟩, ⟨b, true⟩]
  | none => [⟨tt, true⟩]

/-- Embeds `_tokenize`: split on spaces, then split a trailing
punctuation run off each fragment. -/
def tokenize (text : PyStr) : List Token :=
  (splitSpace text).flatMap fragTokens

/-- The text contributed by one token during detokenization. -/
def tokenOut (t : Token) : PyStr :=
  t.text ++ (if t.hasTrailingSpace then [' '] else [])

/-- Embeds `_textize`: concatenate every token (with its trailing
space when flagged) and strip the result. -/
def textize (ts : List Token) : PyStr :=
  pyStrip (ts.flatMap tokenOut)

/-! ### Token-algorithm interface (`_TokenAlgo`)

A token algorithm exposes a pure eligibility filter and a transform
that may draw from the generator and may fail (a Python runtime error
such as an unbound local variable or an empty `random.choice`
sequence). -/

/-- The filter/transform pair of a token algorithm. -/
structure TokenAlgoI where
  filter : Token → Bool
  trans : Token → G → Except Unit (Token × G)

/-- Embeds `_TokenAlgo._apply_with_prob`: the source first builds the
list of eligible tokens and then, for each one in order, draws a
weighted boolean and transforms on true, mutating tokens in place.
Filters are pure and tokens are distinct objects, so this is the same
as a single pass that draws once per eligible token. -/
def applyWithProb (a : TokenAlgoI) (w : Nat × Nat) :
    List Token → G → Except Unit (List Token × G)
  | [], g => .ok ([], g)
  | t :: rest, g =>
    if a.filter t then do
      let (b, g) ← randBool w g
      if b then do
        let (t2, g) ← a.trans t g
        let (rest2, g) ← applyWithProb a w rest g
        .ok (t2 :: rest2, g)
      else do
        let (rest2, g) ← applyWithProb a w rest g
        .ok (t :: rest2, g)
    else do
      let (rest2, g) ← applyWithProb a w rest g
      .ok (t :: rest2, g)

/-! ### Monique (`_MoniqueAlgo`): homophone swaps

Python set literals are embedded as lists in declaration order (one
repeated member, `met`, is dropped because a Python set keeps a single
copy). -/

/-- The `_MoniqueAlgo._rep_sets` table. -/
def moniqueRepSets : List (List PyStr) :=
  [[apoS "c" "est", S "ces", S "ses", S "sais", S "sait"],
   [S "à", S "a"],
   [S "ça", S "sa"],
   [S "ce", S "se"],
   [S "dans", apoS "d" "en"],
   [S "la", S "là", apoS "l" "as"],
   [S "ma", apoS "m" "a", apoS "m" "as"],
   [S "ta", apoS "t" "a", apoS "t" "as"],
   [S "mon", apoS "m" "ont", S "mont"],
   [S "ton", apoS "t" "ont", S "thon"],
   [S "leur", S "leurs", apoS "l" "heure"],
   [S "mes", apoS "m" "es", apoS "m" "est", S "mets", S "met", S "mais"],
   [S "ni", apoS "n" "y"],
   [S "où", S "ou"],
   [S "on", S "ont"],
   [S "parce", S "par ce", S "par se"],
   [S "peu", S "peux", S "peut", S "peus"],
   [S "peut-être", S "peut être", S "peu être"],
   [S "près", S "prêt"],
   [apoS "qu" "en", S "quand", S "quant"],
   [S "quelque", S "quelques", S "quel que", S "quels que", S "quelles que"],
   [apoS "qu" "elle", apoS "qu" "elles", S "quel", S "quels", S "quelle",
    S "quelles"],
   [apoS "qu" "il", apoS "qu" "ils"],
   [apoS "s" "en", S "sens", S "sent", S "sans", S "sang"],
   [apoS "t" "en", S "temps", S "tant", S "tend", S "tends"],
   [apoS "s" "y", S "si", S "ci"],
   [S "son", S "sont"],
   [S "luance", S "nuance"],
   [S "faire", S "fer"],
   [S "pas", S "pa"],
   [S "du", S "de le"],
   [S "des", S "de les"],
   [S "au", S "à le"],
   [S "aux", S "à les"],
   [S "tous", S "tout", S "touts"],
   [S "toute", S "toutes"]]

/-- Embeds `_MoniqueAlgo.filter`. -/
def moniqueFilter (t : Token) : Bool :=
  moniqueRepSets.any (fun reps => t.lower ∈ reps)

/-- Embeds the loop body of `_MoniqueAlgo.trans` for one replacement
set: the token is replaced when its current lowercase form belongs to
the set. -/
def moniqueStep (t : Token) (reps : List PyStr) (g : G) :
    Except Unit (Token × G) :=
  if t.lower ∈ reps then do
    let (rep, g) ← chooseOtherInSet t.lower reps g
    .ok (t.replaceKeepForm rep, g)
  else .ok (t, g)

/-- Worker folding `moniqueStep` over a list of replacement sets. -/
def moniqueTransGo (t : Token) (g : G) :
    List (List PyStr) → Except Unit (Token × G)
  | [] => .ok (t, g)
  | reps :: rest => do
    let (t2, g2) ← moniqueStep t reps g
    moniqueTransGo t2 g2 rest

/-- Embeds `_MoniqueAlgo.trans`: the loop visits every replacement
set, re-testing the updated token against the later sets. -/
def moniqueTrans (t : Token) (g : G) : Except Unit (Token × G) :=
  moniqueTransGo t g moniqueRepSets

/-- The Monique algorithm. -/
def moniqueAlgoI : TokenAlgoI := ⟨moniqueFilter, moniqueTrans⟩

/-! ### Alain (`_AlainAlgo`): suffix permutation -/

/-- The `_AlainAlgo._suffix_sets` table (set literals in declaration
order). -/
def alainSuffixSets : List (List PyStr) :=
  [[S "er", S "ez", S "é", S "és", S "ée", S "ées"],
   [S "tail", S "taille", S "tails", S "tailles"],
   [S "vail", S "vaille", S "vails", S "vailles"],
   [S "bail", S "baille", S "bails", S "bailles"],
   [S "ment", S "mant", S "ments", S "mants"],
   [S "son", S "sont", S "sons", S "sonts"],
   [S "ain", S "ein", S "ains", S "eins"],
   [S "ance", S "ence", S "ances", S "ences"],
   [S "ard", S "art", S "ards", S "arts"],
   [S "al", S "ale", S "als"],
   [S "aud", S "o"],
   [S "el", S "els", S "elle", S "elles"],
   [S "il", S "ils", S "ile", S "iles"],
   [S "eux", S "eu", S "eus"],
   [S "eur", S "eure", S "eures"],
   [S "cide", S "side", S "cides", S "sides"],
   [S "vore", S "vores", S "vaure", S "vaures"],
   [S "ose", S "ause", S "oses", S "auses"],
   [S "gramme", S "grame", S "gram", S "grammes", S "grames", S "grams"],
   [S "gène", S "gêne", S "gene", S "gènes", S "gênes", S "genes"],
   [S "logie", S "logies", S "logis", S "logy"],
   [S "ible", S "ibles"],
   [S "let", S "lait", S "laits", S "lais", S "laid", S "laids"],
   [S "iste", S "istes", S "isse", S "isses"],
   [S "able", S "abe", S "ables", S "abes"],
   [S "eil", S "eils", S "eille", S "eilles"],
   [S "port", S "porc"]]

/-- Embeds `_AlainAlgo._find_suffixes`: the first suffix, in iteration
order, that the token ends with and is strictly shorter than the
token, together with its set. -/
def alainFindSuffixes (t : Token) : Option (PyStr × List PyStr) :=
  alainSuffixSets.findSome? fun suffixes =>
    suffixes.findSome? fun suffix =>
      if suffix.length < t.len ∧ suffix.isSuffixOf t.lower then
        some (suffix, suffixes)
      else none

/-- Embeds `_AlainAlgo.filter`. -/
def alainFilter (t : Token) : Bool := (alainFindSuffixes t).isSome

/-- Embeds `_AlainAlgo.trans`; unpacking a `None` result raises
`TypeError`. -/
def alainTrans (t : Token) (g : G) : Except Unit (Token × G) :=
  match alainFindSuffixes t with
  | none => .error ()
  | some (suffix, suffixes) => do
    let (rep, g) ← chooseOtherInSet suffix suffixes g
    .ok (t.replaceSuffix rep suffix.length, g)

/-- The Alain algorithm. -/
def alainAlgoI : TokenAlgoI := ⟨alainFilter, alainTrans⟩

/-! ### Nicole (`_NicoleAlgo`): first-group verb endings

The file `boomer/verbs.py` holding `_verb_er_prefixes` is not part of
the sources under review; the development is parametric in that stem
list (`vp` below).  Modelled from the spec: an external, read-only set
of first-conjugation verb roots consulted by this algorithm. -/

/-- The alternation of the `_NicoleAlgo._find_suffix` regular
expression, in declared order. -/
def nicoleAlts : List PyStr :=
  [S "eais", S "eait", S "eaient", S "ais", S "ait", S "aient",
   S "e", S "es", S "ent"]

/-- Worker embedding `re.match(r'(.+?)(eais|…|ent)$', s)`: the lazy
`(.+?)` takes the shortest nonempty stem (never crossing a newline)
such that the remainder equals one of the alternatives, with the
anchor `$` also accepting a final newline after it. -/
def nicoleMatchFrom (pre : PyStr) : PyStr → Option (PyStr × PyStr)
  | [] => none
  | c :: rest =>
    if c = '\n' then none
    else
      let pre2 := pre ++ [c]
      match nicoleAlts.find? (fun alt => rest = alt ∨ rest = alt ++ ['\n']) with
      | some alt => some (pre2, alt)
      | none => nicoleMatchFrom pre2 rest

/-- The regular-expression match of `_NicoleAlgo._find_suffix`,
returning the two groups on success. -/
def nicoleMatch (s : PyStr) : Option (PyStr × PyStr) :=
  nicoleMatchFrom [] s

/-- Embeds `_NicoleAlgo._find_suffix`: no value when the lowercased
token is not a handled form or when the stem is not a known verb
root. -/
def nicoleFindSuffix (vp : List PyStr) (t : Token) : Option PyStr :=
  match nicoleMatch t.lower with
  | none => none
  | some (stem, suffix) => if stem ∈ vp then some suffix else none

/-- Embeds `_NicoleAlgo.filter`. -/
def nicoleFilter (vp : List PyStr) (t : Token) : Bool :=
  (nicoleFindSuffix vp t).isSome

/-- The present-tense suffix family of `_NicoleAlgo.trans`. -/
def nicolePresent : List PyStr := [S "e", S "es", S "ent"]

/-- The imperfect suffix family of `_NicoleAlgo.trans`. -/
def nicoleImperfect : List PyStr := [S "ais", S "ait", S "aient"]

/-- The imperfect-with-e suffix family of `_NicoleAlgo.trans`. -/
def nicoleImperfect2 : List PyStr := [S "eais", S "eait", S "eaient"]

/-- Embeds `_NicoleAlgo.trans`: the matched suffix is swapped inside
its family, the families being tested in declared order.  When no
family contains the suffix (or the match is missing) the local
variable `suffix` is unbound and Python raises `NameError`. -/
def nicoleTrans (vp : List PyStr) (t : Token) (g : G) :
    Except Unit (Token × G) :=
  match nicoleFindSuffix vp t with
  | none => .error ()
  | some orig =>
    if orig ∈ nicolePresent then do
      let (rep, g) ← chooseOtherInSet orig nicolePresent g
      .ok (t.replaceSuffix rep orig.length, g)
    else if orig ∈ nicoleImperfect then do
      let (rep, g) ← chooseOtherInSet orig nicoleImperfect g
      .ok (t.replaceSuffix rep orig.length, g)
    else if orig ∈ nicoleImperfect2 then do
      let (rep, g) ← chooseOtherInSet orig nicoleImperfect2 g
      .ok (t.replaceSuffix rep orig.length, g)
    else .error ()

/-- The Nicole algorithm (parametric in the verb-stem list). -/
def nicoleAlgoI (vp : List PyStr) : TokenAlgoI :=
  ⟨nicoleFilter vp, nicoleTrans vp⟩

/-! ### Serge (`_SergeAlgo`): contraction expansion -/

/-- The `_SergeAlgo._reps` mapping, in insertion order. -/
def sergeReps : List (PyStr × PyStr) :=
  [(apoS "qu" "", S "que "), (apoS "d" "", S "de "), (apoS "l" "", S "la ")]

/-- Embeds `_SergeAlgo._find_prefix`: the first contraction, in
declared order, that the lowercased token starts with. -/
def sergeFind (t : Token) : Option (PyStr × PyStr) :=
  sergeReps.find? (fun pr => pr.1.isPrefixOf t.lower)

/-- Embeds `_SergeAlgo.filter`. -/
def sergeFilter (t : Token) : Bool := (sergeFind t).isSome

/-- Embeds `_SergeAlgo.trans`; unpacking a `None` result raises
`TypeError`. -/
def sergeTrans (t : Token) (g : G) : Except Unit (Token × G) :=
  match sergeFind t with
  | none => .error ()
  | some (pre, rep) => .ok (t.replacePre rep pre.length, g)

/-- The Serge algorithm. -/
def sergeAlgoI : TokenAlgoI := ⟨sergeFilter, sergeTrans⟩

/-! ### André and Muriel: case of the first letter -/

/-- Embeds `_AndréAlgo.filter`. -/
def andreFilter (t : Token) : Bool := 2 ≤ t.len && t.startsWithLower

/-- Embeds `_AndréAlgo.trans`. -/
def andreTrans (t : Token) (g : G) : Except Unit (Token × G) :=
  match t.text with
  | [] => .ok (t, g)
  | c :: rest => .ok ({ t with text := pyUpperChar c :: rest }, g)

/-- The André algorithm. -/
def andreAlgoI : TokenAlgoI := ⟨andreFilter, andreTrans⟩

/-- Embeds `_MurielAlgo.filter`. -/
def murielFilter (t : Token) : Bool := 2 ≤ t.len && t.startsWithUpper

/-- Embeds `_MurielAlgo.trans`. -/
def murielTrans (t : Token) (g : G) : Except Unit (Token × G) :=
  match t.text with
  | [] => .ok (t, g)
  | c :: rest => .ok ({ t with text := pyLowerChar c :: rest }, g)

/-- The Muriel algorithm. -/
def murielAlgoI : TokenAlgoI := ⟨murielFilter, murielTrans⟩

/-! ### Denis (`_DenisAlgo`): punctuation elongation -/

/-- Embeds `_DenisAlgo.filter`. -/
def denisFilter (t : Token) : Bool :=
  t.text = S "." ∨ t.text = S "," ∨ t.text = S "!" ∨ t.text = S "?"

/-- The repetition loop of `_DenisAlgo.trans`: before each copy of the
punctuation text, a one-in-three draw inserts a space. -/
def denisLoop (txt : PyStr) : Nat → G → Except Unit (PyStr × G)
  | 0, g => .ok ([], g)
  | n + 1, g => do
    let (x, g) ← pyRandint 0 2 g
    let (rest, g) ← denisLoop txt n g
    .ok ((if x = 0 then [' '] else []) ++ txt ++ rest, g)

/-- Embeds `_DenisAlgo.trans`: repeat the punctuation 2 to 7 times. -/
def denisTrans (t : Token) (g : G) : Except Unit (Token × G) := do
  let (n, g) ← pyRandint 2 7 g
  let (out, g) ← denisLoop t.text n g
  .ok ({ t with text := out }, g)

/-- The Denis algorithm. -/
def denisAlgoI : TokenAlgoI := ⟨denisFilter, denisTrans⟩

/-! ### Guy (`_GuyAlgo`): accent stripping

The class defines its replacement routine under the name `trans_cb`
(taking the token as its only argument), which is never called: the
per-token loop of `_apply_with_prob` invokes `self.trans`, and the
class does not override `_TokenAlgo.trans`, whose body is `pass`.  The
effective transform is therefore the identity.  The class does
override `process_tokens` to use the fixed weight pair `[1, 0]`
regardless of the configured one. -/

/-- The `_GuyAlgo._accents` mapping, in insertion order. -/
def guyAccents : List (Char × Char) :=
  [('à', 'a'), ('â', 'a'), ('è', 'e'), ('é', 'e'), ('ê', 'e'), ('ë', 'e'),
   ('ï', 'i'), ('ö', 'o'), ('ô', 'o'), ('ù', 'u'), ('ü', 'u'), ('ç', 'c')]

/-- Embeds `_GuyAlgo.filter`. -/
def guyFilter (t : Token) : Bool :=
  t.lower.any (fun c => guyAccents.any (fun p => p.1 = c))

/-- Embeds the effective `_GuyAlgo.trans`: the inherited
`_TokenAlgo.trans`, a no-op. -/
def guyTrans (t : Token) (g : G) : Except Unit (Token × G) := .ok (t, g)

/-- The Guy algorithm as wired in the source. -/
def guyAlgoI : TokenAlgoI := ⟨guyFilter, guyTrans⟩

/-- Embeds `_GuyAlgo.process_tokens`: the configured weight pair is
ignored in favour of the fixed `[1, 0]`. -/
def guyProcessTokens (_w : Nat × Nat) (ts : List Token) (g : G) :
    Except Unit (List Token × G) :=
  applyWithProb guyAlgoI (1, 0) ts g

/-! ### Chantal (`_ChantalAlgo`): separator stripping -/

/-- Embeds `_ChantalAlgo.filter`. -/
def chantalFilter (t : Token) : Bool := apo ∈ t.text ∨ '-' ∈ t.text

/-- Replaces every occurrence of a character by a string
(`str.replace`). -/
def replaceAllChar (s : PyStr) (c : Char) (rep : PyStr) : PyStr :=
  s.flatMap (fun x => if x = c then rep else [x])

/-- Embeds `_ChantalAlgo.trans`: one draw chooses the replacement (a
space or nothing) for every apostrophe, a second draw the replacement
for every hyphen. -/
def chantalTrans (t : Token) (g : G) : Except Unit (Token × G) := do
  let (r1, g) ← pyChoice [[' '], ([] : PyStr)] g
  let txt := replaceAllChar t.text apo r1
  let (r2, g) ← pyChoice [[' '], ([] : PyStr)] g
  .ok ({ t with text := replaceAllChar txt '-' r2 }, g)

/-- The Chantal algorithm. -/
def chantalAlgoI : TokenAlgoI := ⟨chantalFilter, chantalTrans⟩

/-! ### Marc (`_MarcAlgo`): short-word deletion -/

/-- The `_MarcAlgo._words` set (declaration order). -/
def marcWords : List PyStr :=
  [S "au", S "ça", S "ce", S "ci", S "du", S "dû", S "en", S "es", S "et",
   S "eu", S "il", S "je", S "la", S "là", S "le", S "ma", S "me", S "ne",
   S "ni", S "on", S "ou", S "où", S "pu", S "sa", S "se", S "si", S "ta",
   S "te", S "un"]

/-- Embeds `_MarcAlgo.filter`. -/
def marcFilter (t : Token) : Bool := t.lower ∈ marcWords

/-- Embeds `_MarcAlgo.trans`: empty the token and clear its trailing
space. -/
def marcTrans (_t : Token) (g : G) : Except Unit (Token × G) :=
  .ok (⟨[], false⟩, g)

/-- The Marc algorithm. -/
def marcAlgoI : TokenAlgoI := ⟨marcFilter, marcTrans⟩

/-! ### Manon (`_ManonAlgo`): letter transposition -/

/-- Embeds `_ManonAlgo.filter`. -/
def manonFilter (t : Token) : Bool := 7 ≤ t.len

/-- Embeds `_ManonAlgo.trans`: swap the characters at a random
interior position (`random.randint(1, len(t) - 3)`). -/
def manonTrans (t : Token) (g : G) : Except Unit (Token × G) := do
  let (i, g) ← pyRandint 1 (t.len - 3) g
  let c1 := t.text.getD i ' '
  let c2 := t.text.getD (i + 1) ' '
  .ok ({ t with text := t.text.take i ++ [c2, c1] ++ t.text.drop (i + 2) }, g)

/-- The Manon algorithm. -/
def manonAlgoI : TokenAlgoI := ⟨manonFilter, manonTrans⟩

/-! ### Sylvain (`_SylvainAlgo`): space multiplication -/

/-- Embeds `_SylvainAlgo.process_text`: each space draws a weighted
boolean and, on true, is replaced by 2 or 3 spaces. -/
def sylvainProc (w : Nat × Nat) : PyStr → G → Except Unit (PyStr × G)
  | [], g => .ok ([], g)
  | c :: rest, g =>
    if c = ' ' then do
      let (b, g) ← randBool w g
      if b then do
        let (k, g) ← pyRandint 2 3 g
        let (out, g) ← sylvainProc w rest g
        .ok (List.replicate k ' ' ++ out, g)
      else do
        let (out, g) ← sylvainProc w rest g
        .ok (c :: out, g)
    else do
      let (out, g) ← sylvainProc w rest g
      .ok (c :: out, g)

/-! ### Josey (`_JoseyAlgo`): punctuation injection -/

/-- Embeds `_JoseyAlgo.process_text`: after each character, a weighted
boolean decides whether to insert a random comma or period. -/
def joseyProc (w : Nat × Nat) : PyStr → G → Except Unit (PyStr × G)
  | [], g => .ok ([], g)
  | c :: rest, g => do
    let (b, g) ← randBool w g
    if b then do
      let (p, g) ← pyChoice [',', '.'] g
      let (out, g) ← joseyProc w rest g
      .ok (c :: p :: out, g)
    else do
      let (out, g) ← joseyProc w rest g
      .ok (c :: out, g)

/-! ### Yves (`_YvesAlgo`): phonetic substitutions -/

/-- The `_YvesAlgo._reps` mapping, in insertion order. -/
def yvesReps : List (PyStr × PyStr) :=
  [(S "ç", S "ss"), (S "nn", S "n"), (S "tt", S "t"), (S "ss", S "c")]

/-- The inner loop of `_YvesAlgo.process_text` at one position: the
candidate sources are tested in declared order, each match draws a
weighted boolean, and the first successful draw returns the
replacement together with the length of the matched source. -/
def yvesFind (w : Nat × Nat) :
    List (PyStr × PyStr) → PyStr → G → Except Unit (Option (PyStr × Nat) × G)
  | [], _, g => .ok (none, g)
  | (src, dst) :: reps, rem, g =>
    if src.isPrefixOf rem then do
      let (b, g2) ← randBool w g
      if b then .ok (some (dst, src.length), g2)
      else yvesFind w reps rem g2
    else yvesFind w reps rem g

/-- Embeds `_YvesAlgo.process_text`: scan left to right, either
replacing a matched source and advancing past it, or copying one
character. -/
def yvesProc (w : Nat × Nat) : PyStr → G → Except Unit (PyStr × G)
  | [], g => .ok ([], g)
  | c :: rest, g => do
    match ← yvesFind w yvesReps (c :: rest) g with
    | (some (dst, k), g) => do
      let (out, g) ← yvesProc w (rest.drop (k - 1)) g
      .ok (dst ++ out, g)
    | (none, g) => do
      let (out, g) ← yvesProc w rest g
      .ok (c :: out, g)
termination_by rem => rem.length
decreasing_by
  · simp only [List.length_cons, List.length_drop]; omega
  · simp

/-! ### The orchestrator (`boomer`) -/

/-- The names of the fourteen algorithms. -/
inductive AlgoName where
  | monique | alain | nicole | serge | andre | muriel | denis | guy
  | chantal | marc | manon | sylvain | josey | yves
deriving DecidableEq

/-- The declaration order of `algo_clss` in `boomer`. -/
def algoOrder : List AlgoName :=
  [.monique, .alain, .nicole, .serge, .andre, .muriel, .denis, .guy,
   .chantal, .marc, .manon, .sylvain, .josey, .yves]

/-- Whether the algorithm subclasses `_TextAlgo` rather than
`_TokenAlgo`. -/
def isTextName : AlgoName → Bool
  | .sylvain | .josey | .yves => true
  | _ => false

/-- Embeds `_default_algo_cfgs`. -/
def defaultCfg : AlgoName → Option (Nat × Nat)
  | .monique => some (3, 2)
  | .alain => some (2, 1)
  | .nicole => some (3, 1)
  | .serge => some (2, 1)
  | .andre => some (1, 3)
  | .muriel => some (1, 2)
  | .denis => some (2, 1)
  | .guy => some (1, 1)
  | .chantal => some (2, 1)
  | .marc => some (1, 5)
  | .manon => some (1, 3)
  | .sylvain => some (1, 7)
  | .josey => some (1, 15)
  | .yves => some (1, 3)

/-- A caller configuration: for each algorithm name, either no entry
(fall back to the default) or an entry that is a weight pair or the
disabled marker (`None`). -/
abbrev Overrides := AlgoName → Option (Option (Nat × Nat))

/-- The effective configuration after `effective_algo_cfgs.update`. -/
def effCfg (ov : Overrides) (n : AlgoName) : Option (Nat × Nat) :=
  match ov n with
  | some c => c
  | none => defaultCfg n

/-- The token-algorithm object built for a name (`None` for the three
text algorithms). -/
def tokenAlgoOf (vp : List PyStr) : AlgoName → Option TokenAlgoI
  | .monique => some moniqueAlgoI
  | .alain => some alainAlgoI
  | .nicole => some (nicoleAlgoI vp)
  | .serge => some sergeAlgoI
  | .andre => some andreAlgoI
  | .muriel => some murielAlgoI
  | .denis => some denisAlgoI
  | .guy => some guyAlgoI
  | .chantal => some chantalAlgoI
  | .marc => some marcAlgoI
  | .manon => some manonAlgoI
  | _ => none

/-- Embeds `algo.process_tokens(tokens)` for a token algorithm: Guy
overrides the method to force the weight pair `[1, 0]`; every other
algorithm uses the inherited `_TokenAlgo.process_tokens`. -/
def processTokensFor (vp : List PyStr) (n : AlgoName) (w : Nat × Nat)
    (ts : List Token) (g : G) : Except Unit (List Token × G) :=
  if n = .guy then guyProcessTokens w ts g
  else
    match tokenAlgoOf vp n with
    | some a => applyWithProb a w ts g
    | none => .ok (ts, g)

/-- Embeds the token stage of `boomer`: for each active token
algorithm in order, `_retokenize_and_process` detokenizes, tokenizes
again and applies the algorithm. -/
def runTokenAlgos (vp : List PyStr) :
    List (AlgoName × (Nat × Nat)) → List Token → G →
    Except Unit (List Token × G)
  | [], ts, g => .ok (ts, g)
  | (n, w) :: rest, ts, g => do
    let ts2 := tokenize (textize ts)
    let (ts3, g) ← processTokensFor vp n w ts2 g
    runTokenAlgos vp rest ts3 g

/-- Embeds `algo.process_text` dispatch for the text algorithms. -/
def textProcFor (n : AlgoName) (w : Nat × Nat) (s : PyStr) (g : G) :
    Except Unit (PyStr × G) :=
  match n with
  | .sylvain => sylvainProc w s g
  | .josey => joseyProc w s g
  | .yves => yvesProc w s g
  | _ => .ok (s, g)

/-- Embeds the text stage of `boomer`: each active text algorithm in
order rewrites the whole string. -/
def runTextAlgos :
    List (AlgoName × (Nat × Nat)) → PyStr → G → Except Unit (PyStr × G)
  | [], s, g => .ok (s, g)
  | (n, w) :: rest, s, g => do
    let (s2, g) ← textProcFor n w s g
    runTextAlgos rest s2 g

/-- The list of active algorithms with their effective weight pairs,
in declaration order. -/
def activeAlgos (ov : Overrides) : List (AlgoName × (Nat × Nat)) :=
  algoOrder.filterMap (fun n => (effCfg ov n).map (fun w => (n, w)))

/-- The body of `boomer` once the generator has been seeded: tokenize,
run the token algorithms (re-tokenizing before each), detokenize, run
the text algorithms. -/
def boomerRun (vp : List PyStr) (input : PyStr) (ov : Overrides) (g : G) :
    Except Unit (PyStr × G) := do
  let tokens := tokenize input
  let active := activeAlgos ov
  let (tokens, g) ←
    runTokenAlgos vp (active.filter (fun p => !isTextName p.1)) tokens g
  runTextAlgos (active.filter (fun p => isTextName p.1)) (textize tokens) g

/-- Embeds the entry point `boomer(input, algo_cfgs, seed)`.  The pair
returned on success is the output string together with the final state
of the process-wide generator: when a seed is supplied the previous
state is saved, the generator reseeded, and the saved state restored
after the run (on an uncaught error the restore is skipped, which the
error case models by dropping the state). -/
def boomer (vp : List PyStr) (input : PyStr) (ov : Overrides)
    (seed : Option Int) (g0 : G) : Except Unit (PyStr × G) :=
  match seed with
  | some s => (boomerRun vp input ov (seedOf s)).map (fun p => (p.1, g0))
  | none => boomerRun vp input ov g0

/-! ### Additional definitions used by the verification -/

instance {α : Type} [DecidableEq α] : DecidableEq (Except Unit α) := fun a b =>
  match a, b with
  | .error e1, .error e2 => isTrue (by cases e1; cases e2; rfl)
  | .ok x, .ok y =>
    if h : x = y then isTrue (by rw [h])
    else isFalse (fun hc => h (Except.ok.inj hc))
  | .error _, .ok _ => isFalse (fun hc => Except.noConfusion hc)
  | .ok _, .error _ => isFalse (fun hc => Except.noConfusion hc)

/-- A string has no leading and no trailing whitespace. -/
def NoEdgeWs (s : PyStr) : Prop :=
  (∀ c, s.head? = some c → pyIsSpace c = false) ∧
  (∀ c, s.getLast? = some c → pyIsSpace c = false)

/-- Boolean check that a string has no leading and no trailing
whitespace. -/
def noEdgeWsB (s : PyStr) : Bool :=
  (match s.head? with | none => true | some c => !pyIsSpace c) &&
  (match s.getLast? with | none => true | some c => !pyIsSpace c)

/-- Whether a string contains two adjacent spaces. -/
def hasDoubleSpace : PyStr → Bool
  | c1 :: c2 :: rest => (c1 = ' ' && c2 = ' ') || hasDoubleSpace (c2 :: rest)
  | _ => false

/-- Follows the words of the spec (claim C6): the trimmed,
single-spaced normalization of a string collapses every space run to a
single space and removes leading and trailing spaces. -/
def singleSpacedNorm (s : PyStr) : PyStr :=
  List.intercalate [' '] ((splitSpace s).filter (fun f => f ≠ []))

/-- The configuration giving the homophone algorithm the weight pair
`(0, 0)` and disabling everything else. -/
def cfgMonique00 : Overrides :=
  fun n => if n = .monique then some (some (0, 0)) else some none

/-- Follows the description of the spec for the phonetic scan (claim
C8, amended): the four candidate sources — the single character ç and
the digraphs nn, tt, ss — are tested at each position in declared
order; on a match (coin draws forced true) the fixed replacement is
emitted and the scan advances past the match, otherwise one character
is copied. -/
def yvesSpecScan : PyStr → PyStr
  | [] => []
  | c :: rest =>
    if (S "ç").isPrefixOf (c :: rest) then S "ss" ++ yvesSpecScan rest
    else if (S "nn").isPrefixOf (c :: rest) then S "n" ++ yvesSpecScan (rest.drop 1)
    else if (S "tt").isPrefixOf (c :: rest) then S "t" ++ yvesSpecScan (rest.drop 1)
    else if (S "ss").isPrefixOf (c :: rest) then S "c" ++ yvesSpecScan (rest.drop 1)
    else c :: yvesSpecScan rest
termination_by s => s.length
decreasing_by
  all_goals simp [List.length_drop]
  all_goals omega

/-! ## Verification

Helper lemmas about the weighted draw and the per-token application
loop, then the theorems for the individual claims. -/

@[simp] theorem exceptBind_ok {α β : Type} (a : α)
    (f : α → Except Unit β) : (Except.ok a : Except Unit α) >>= f = f a := rfl

@[simp] theorem exceptBind_error {α β : Type} (e : Unit)
    (f : α → Except Unit β) :
    (Except.error e : Except Unit α) >>= f = Except.error e := rfl

@[simp] theorem exceptMap_ok {α β : Type} (a : α) (f : α → β) :
    (Except.ok a : Except Unit α).map f = Except.ok (f a) := rfl

@[simp] theorem exceptMap_error {α β : Type} (e : Unit) (f : α → β) :
    (Except.error e : Except Unit α).map f = Except.error e := rfl

@[simp] theorem exceptPure_eq {α : Type} (a : α) :
    (pure a : Except Unit α) = Except.ok a := rfl

/-! ### Tokenizer and strip lemmas -/

theorem matchPunctFrom_append {tt : PyStr} (hnl : '\n' ∉ tt) :
    ∀ (i : Nat) {a b : PyStr}, matchPunctFrom tt i = some (a, b) → a ++ b = tt := by
  intro i
  induction i with
  | zero =>
    intro a b h
    rw [show matchPunctFrom tt 0 = none from rfl] at h
    exact Option.noConfusion h
  | succ i ih =>
    intro a b h
    rw [matchPunctFrom] at h
    by_cases hc : '\n' ∉ tt.take (i + 1) ∧
        (tt.drop (i + 1)).takeWhile isPunctChar ≠ [] ∧
        ((tt.drop (i + 1)).dropWhile isPunctChar = [] ∨
         (tt.drop (i + 1)).dropWhile isPunctChar = ['\n'])
    · rw [if_pos hc] at h
      obtain ⟨-, -, hr | hr⟩ := hc
      · have hab : tt.take (i + 1) = a ∧
            (tt.drop (i + 1)).takeWhile isPunctChar = b := by simpa using h
        obtain ⟨rfl, rfl⟩ := hab
        have hw := List.takeWhile_append_dropWhile isPunctChar (tt.drop (i + 1))
        rw [hr, List.append_nil] at hw
        rw [hw]
        exact List.take_append_drop _ _
      · have hmem : '\n' ∈ (tt.drop (i + 1)).dropWhile isPunctChar := by
          rw [hr]; exact List.mem_singleton.mpr rfl
        exact absurd
          ((List.drop_sublist _ _).mem
            ((List.dropWhile_sublist _).mem hmem)) hnl
    · rw [if_neg hc] at h
      exact ih h

theorem matchPunct_append {tt a b : PyStr} (hnl : '\n' ∉ tt)
    (h : matchPunct tt = some (a, b)) : a ++ b = tt :=
  matchPunctFrom_append hnl _ h

theorem fragTokens_flat {tt : PyStr} (hnl : '\n' ∉ tt) :
    (fragTokens tt).flatMap tokenOut = tt ++ [' '] := by
  rw [fragTokens]
  cases hm : matchPunct tt with
  | none => simp [tokenOut]
  | some ab =>
    obtain ⟨a, b⟩ := ab
    have hab := matchPunct_append hnl hm
    simp [tokenOut, ← hab]

theorem splitSpace_flat (s : PyStr) :
    (splitSpace s).flatMap (fun f => f ++ [' ']) = s ++ [' '] := by
  induction s with
  | nil => rfl
  | cons c rest ih =>
    rw [splitSpace]
    by_cases hc : c = ' '
    · subst hc; simp [ih]
    · rw [if_neg hc]
      cases hs : splitSpace rest with
      | nil => rw [hs] at ih; simp at ih
      | cons f fs =>
        rw [hs] at ih
        simp only [List.flatMap_cons, List.cons_append, List.append_assoc]
          at ih ⊢
        rw [ih]

theorem splitSpace_no_newline {s : PyStr} (hnl : '\n' ∉ s) :
    ∀ tt ∈ splitSpace s, '\n' ∉ tt := by
  induction s with
  | nil =>
    intro tt htt
    rw [splitSpace] at htt
    simp only [List.mem_singleton] at htt
    simp [htt]
  | cons c rest ih =>
    have hc : c ≠ '\n' := fun h => hnl (h ▸ List.mem_cons_self ..)
    have hrest : '\n' ∉ rest := fun h => hnl (List.mem_cons_of_mem _ h)
    intro tt htt
    rw [splitSpace] at htt
    by_cases hsp : c = ' '
    · rw [if_pos hsp] at htt
      rcases List.mem_cons.mp htt with h | h
      · simp [h]
      · exact ih hrest tt h
    · rw [if_neg hsp] at htt
      cases hs : splitSpace rest with
      | nil =>
        rw [hs] at htt
        simp only [List.mem_singleton] at htt
        subst htt
        intro hmem
        rcases List.mem_cons.mp hmem with h2 | h2
        · exact hc h2.symm
        · simp at h2
      | cons f fs =>
        rw [hs] at htt
        rcases List.mem_cons.mp htt with h | h
        · subst h
          intro hmem
          rcases List.mem_cons.mp hmem with h2 | h2
          · exact hc h2.symm
          · exact ih hrest f (hs ▸ List.mem_cons_self ..) h2
        · exact ih hrest tt (hs ▸ List.mem_cons_of_mem _ h)

theorem tokenize_flat {s : PyStr} (hnl : '\n' ∉ s) :
    (tokenize s).flatMap tokenOut = s ++ [' '] := by
  rw [tokenize, List.flatMap_assoc]
  rw [List.flatMap_congr
    (fun tt htt => fragTokens_flat (splitSpace_no_newline hnl tt htt))]
  exact splitSpace_flat s

theorem dropWhile_head?_not {p : Char → Bool} (s : PyStr) :
    ∀ c, (s.dropWhile p).head? = some c → p c = false := by
  induction s with
  | nil => intro c h; simp at h
  | cons x rest ih =>
    intro c h
    rw [List.dropWhile_cons] at h
    by_cases hx : p x
    · rw [if_pos hx] at h; exact ih c h
    · rw [if_neg hx] at h
      simp only [List.head?_cons, Option.some.injEq] at h
      subst h
      exact Bool.not_eq_true _ ▸ (by simpa using hx)

/-- Decomposition of `stripRight`: the string is the stripped part
followed by its trailing whitespace run. -/
theorem stripRight_decomp (s : PyStr) :
    s = stripRight s ++ (s.reverse.takeWhile pyIsSpace).reverse := by
  conv_lhs => rw [← List.reverse_reverse s,
    ← List.takeWhile_append_dropWhile pyIsSpace s.reverse]
  rw [List.reverse_append]
  rfl

theorem stripRight_getLast? (s : PyStr) :
    ∀ c, (stripRight s).getLast? = some c → pyIsSpace c = false := by
  intro c h
  rw [stripRight, List.getLast?_reverse] at h
  exact dropWhile_head?_not _ c h

theorem stripRight_head? (s : PyStr) (c : Char)
    (h : (stripRight s).head? = some c) : s.head? = some c := by
  conv_lhs => rw [stripRight_decomp s]
  rw [List.head?_append .., h]
  rfl

theorem noEdgeWs_pyStrip (s : PyStr) : NoEdgeWs (pyStrip s) :=
  ⟨fun c h => dropWhile_head?_not _ c (stripRight_head? _ c h),
   fun c h => stripRight_getLast? _ c h⟩

theorem pyStrip_eq_self {s : PyStr} (h : noEdgeWsB s = true) : pyStrip s = s := by
  rw [noEdgeWsB, Bool.and_eq_true] at h
  obtain ⟨h1, h2⟩ := h
  have hl : stripLeft s = s := by
    cases s with
    | nil => rfl
    | cons c rest =>
      simp only [List.head?_cons] at h1
      rw [stripLeft, List.dropWhile_cons, if_neg (by simpa using h1)]
  have hr : stripRight s = s := by
    cases hrev : s.reverse with
    | nil =>
      have : s = [] := by simpa using congrArg List.reverse hrev
      simp [this, stripRight]
    | cons d t =>
      have hd : s.getLast? = some d := by
        rw [← List.head?_reverse, hrev, List.head?_cons]
      rw [hd] at h2
      rw [stripRight, hrev, List.dropWhile_cons, if_neg (by simpa using h2),
        ← hrev, List.reverse_reverse]
  rw [pyStrip, hl, hr]

theorem stripRight_append_space (u : PyStr) :
    stripRight (u ++ [' ']) = stripRight u := by
  rw [stripRight, stripRight, List.reverse_append]
  simp [List.dropWhile_cons, pyIsSpace]

theorem pyStrip_append_space (s : PyStr) : pyStrip (s ++ [' ']) = pyStrip s := by
  rw [pyStrip, pyStrip, stripLeft, stripLeft, List.dropWhile_append]
  by_cases he : (s.dropWhile pyIsSpace).isEmpty
  · rw [if_pos he]
    rw [List.isEmpty_iff] at he
    rw [he]
    simp [List.dropWhile_cons, pyIsSpace, stripRight]
  · rw [if_neg he]
    exact stripRight_append_space _

/-- Detokenizing the tokenization of a newline-free string yields the
stripped string: fragments are rejoined around single spaces exactly
as they were split. -/
theorem textize_tokenize {s : PyStr} (hnl : '\n' ∉ s) :
    textize (tokenize s) = pyStrip s := by
  rw [textize, tokenize_flat hnl, pyStrip_append_space]

theorem randBool_always_true {n : Nat} (h : 0 < n) (g : G) :
    randBool (n, 0) g = .ok (true, (randNat g).2) := by
  simp only [randBool]
  rw [if_neg (by omega)]
  simp [Nat.mod_self, Nat.mod_eq_of_lt, h, Nat.mod_lt _ h]

theorem randBool_always_false {n : Nat} (h : 0 < n) (g : G) :
    randBool (0, n) g = .ok (false, (randNat g).2) := by
  simp only [randBool]
  rw [if_neg (by omega)]
  simp

/-- With an all-false weight pair the loop draws once per eligible
token and never transforms: the token list is returned unchanged. -/
theorem applyWithProb_never {a : TokenAlgoI} {n : Nat} (h : 0 < n) :
    ∀ (ts : List Token) (g : G),
      ∃ g2, applyWithProb a (0, n) ts g = .ok (ts, g2) := by
  intro ts
  induction ts with
  | nil => exact fun g => ⟨g, rfl⟩
  | cons t rest ih =>
    intro g
    by_cases hf : a.filter t
    · obtain ⟨g2, hg2⟩ := ih (randNat g).2
      exact ⟨g2, by simp [applyWithProb, hf, randBool_always_false h, hg2]⟩
    · obtain ⟨g2, hg2⟩ := ih g
      exact ⟨g2, by simp [applyWithProb, hf, hg2]⟩

/-- When no token is eligible the loop draws nothing and returns both
the token list and the generator state unchanged. -/
theorem applyWithProb_no_eligible {a : TokenAlgoI} {w : Nat × Nat} :
    ∀ {ts : List Token} (g : G), (∀ t ∈ ts, a.filter t = false) →
      applyWithProb a w ts g = .ok (ts, g) := by
  intro ts
  induction ts with
  | nil => intro g _; rfl
  | cons t rest ih =>
    intro g h
    have ht : a.filter t = false := h t (by simp)
    have := ih g (fun u hu => h u (by simp [hu]))
    simp [applyWithProb, ht, this]

/-- When the transform is the identity, the loop returns the token
list unchanged whatever the draws decide. -/
theorem applyWithProb_id_trans {a : TokenAlgoI} {n : Nat} (h : 0 < n)
    (hid : ∀ t g, a.trans t g = .ok (t, g)) :
    ∀ (ts : List Token) (g : G),
      ∃ g2, applyWithProb a (n, 0) ts g = .ok (ts, g2) := by
  intro ts
  induction ts with
  | nil => exact fun g => ⟨g, rfl⟩
  | cons t rest ih =>
    intro g
    by_cases hf : a.filter t
    · obtain ⟨g2, hg2⟩ := ih (randNat g).2
      exact ⟨g2, by simp [applyWithProb, hf, randBool_always_true h, hid, hg2]⟩
    · obtain ⟨g2, hg2⟩ := ih g
      exact ⟨g2, by simp [applyWithProb, hf, hg2]⟩

/-- C1.  The accent-stripping algorithm, as wired in the source,
leaves every token unchanged: its per-token transform is the inherited
no-op (`trans_cb` is never invoked), even though `process_tokens`
forces the fixed always-true weight pair `[1, 0]` regardless of the
configured one.  This contradicts the claim (and the stated purpose of
the class) that each accented letter is optionally replaced by its
unaccented equivalent. -/
theorem claim_C1_guy_process_noop (w : Nat × Nat) (ts : List Token) (g : G) :
    ∃ g2, guyProcessTokens w ts g = .ok (ts, g2) :=
  applyWithProb_id_trans (by omega) (fun _ _ => rfl) ts g

/-- C2.  Determinism: with a seed supplied, the output of the pipeline
entry point does not depend on the pre-existing state of the
process-wide generator — the generator is reseeded as a function of
the seed alone. -/
theorem claim_C2_determinism (vp : List PyStr) (input : PyStr)
    (ov : Overrides) (s : Int) (g g2 : G) :
    (boomer vp input ov (some s) g).map Prod.fst =
      (boomer vp input ov (some s) g2).map Prod.fst := by
  simp only [boomer]
  cases boomerRun vp input ov (seedOf s) <;> rfl

/-- C5.  Weight extremes: a pair `(n, 0)` with positive `n` makes
every weighted draw true, so the loop transforms every eligible token
(each result position of an eligible token comes from the transform,
ineligible tokens pass through); a pair `(0, n)` makes every draw
false, so no token is touched. -/
theorem claim_C5_weight_extremes (a : TokenAlgoI) (n : Nat) (ts : List Token)
    (g : G) (h : 0 < n) :
    randBool (n, 0) g = .ok (true, (randNat g).2) ∧
    randBool (0, n) g = .ok (false, (randNat g).2) ∧
    (∃ g2, applyWithProb a (0, n) ts g = .ok (ts, g2)) ∧
    (∀ res g2, applyWithProb a (n, 0) ts g = .ok (res, g2) →
      res.length = ts.length ∧
      ∀ i (hi : i < ts.length) (hr : i < res.length),
        (a.filter ts[i] = false → res[i] = ts[i]) ∧
        (a.filter ts[i] = true →
          ∃ gi gi2, a.trans ts[i] gi = .ok (res[i], gi2))) := by
  refine ⟨randBool_always_true h g, randBool_always_false h g,
    applyWithProb_never h ts g, ?_⟩
  clear h
  induction ts generalizing g with
  | nil =>
    intro res g2 hres
    simp only [applyWithProb] at hres
    cases hres
    exact ⟨rfl, fun i hi => by simp at hi⟩
  | cons t rest ih =>
    intro res g2 hres
    by_cases hf : a.filter t
    · by_cases hn : 0 < n
      · rw [show applyWithProb a (n, 0) (t :: rest) g =
            (do
              let (t2, g) ← a.trans t (randNat g).2
              let (rest2, g) ← applyWithProb a (n, 0) rest g
              .ok (t2 :: rest2, g)) by
            simp [applyWithProb, hf, randBool_always_true hn]] at hres
        cases hta : a.trans t (randNat g).2 with
        | error e => rw [hta] at hres; simp at hres
        | ok pa => ?_
        obtain ⟨t2, ga⟩ := pa
        rw [hta] at hres
        simp only [exceptBind_ok] at hres
        cases hrb : applyWithProb a (n, 0) rest ga with
        | error e => rw [hrb] at hres; simp at hres
        | ok pb => ?_
        obtain ⟨rest2, gb⟩ := pb
        rw [hrb] at hres
        simp only [exceptBind_ok] at hres
        have hres2 : t2 :: rest2 = res ∧ gb = g2 := by simpa using hres
        obtain ⟨rfl, rfl⟩ := hres2
        obtain ⟨hlen, hspec⟩ := ih ga rest2 gb hrb
        refine ⟨by simp [hlen], ?_⟩
        rintro (_ | i) hi hr
        · exact ⟨fun hc => by simp [hf] at hc,
            fun _ => ⟨(randNat g).2, ga, by simpa using hta⟩⟩
        · have := hspec i (by simpa using hi) (by simpa using hr)
          simpa using this
      · simp [applyWithProb, hf, randBool, Nat.le_zero.mp (Nat.not_lt.mp hn)]
          at hres
    · rw [show applyWithProb a (n, 0) (t :: rest) g =
          (do
            let (rest2, g) ← applyWithProb a (n, 0) rest g
            .ok (t :: rest2, g)) by simp [applyWithProb, hf]] at hres
      cases hrb : applyWithProb a (n, 0) rest g with
      | error e => rw [hrb] at hres; simp at hres
      | ok pb => ?_
      obtain ⟨rest2, gb⟩ := pb
      rw [hrb] at hres
      simp only [exceptBind_ok] at hres
      have hres2 : t :: rest2 = res ∧ gb = g2 := by simpa using hres
      obtain ⟨rfl, rfl⟩ := hres2
      obtain ⟨hlen, hspec⟩ := ih g rest2 gb hrb
      refine ⟨by simp [hlen], ?_⟩
      rintro (_ | i) hi hr
      · exact ⟨fun _ => by simp, fun hc => by simp [hf] at hc⟩
      · have := hspec i (by simpa using hi) (by simpa using hr)
        simpa using this

/-- Witness for C5 at a concrete algorithm, weight pairs and token
list. -/
theorem claim_C5_weight_extremes_witness :
    (0 < 1) ∧
    (∃ g2, applyWithProb guyAlgoI (0, 1) [⟨S "été", true⟩] 0 =
      .ok ([⟨S "été", true⟩], g2)) :=
  ⟨by decide,
   (claim_C5_weight_extremes guyAlgoI 1 [⟨S "été", true⟩] 0 (by decide)).2.2.1⟩

/-- C4 counterexample.  The round-trip law fails as stated: the string
`"a "` has no embedded double space, yet detokenizing its tokenization
drops the trailing space (the final strip removes it). -/
theorem claim_C4_cex :
    hasDoubleSpace (S "a ") = false ∧
    textize (tokenize (S "a ")) = S "a" ∧
    (S "a" : PyStr) ≠ S "a " := by
  refine ⟨by decide, by decide, by decide⟩

/-- C4, amended.  The round trip `detokenize (tokenize s) = s` holds
for strings without two adjacent spaces, provided additionally that
the first and last characters are not whitespace (the final strip
removes edge whitespace) and that the string contains no newline (the
anchor `$` of the punctuation regex silently drops a newline that ends
a fragment). -/
theorem claim_C4_roundtrip (s : PyStr) (_hds : hasDoubleSpace s = false)
    (hnl : '\n' ∉ s) (hedge : noEdgeWsB s = true) :
    textize (tokenize s) = s := by
  rw [textize_tokenize hnl, pyStrip_eq_self hedge]

/-- Witness for the amended C4 at a concrete sentence. -/
theorem claim_C4_roundtrip_witness :
    textize (tokenize (S "Je sais que tu vas bien.")) =
      S "Je sais que tu vas bien." :=
  claim_C4_roundtrip (S "Je sais que tu vas bien.")
    (by decide) (by decide) (by decide)

/-- The all-disabled configuration: every name is overridden with the
disabled marker. -/
theorem activeAlgos_disabled {ov : Overrides} (hov : ∀ n, ov n = some none) :
    activeAlgos ov = [] := by
  simp [activeAlgos, algoOrder, effCfg, hov]

/-- C6 counterexample.  With every algorithm disabled the pipeline
preserves interior space runs: on `"a  b"` it returns `"a  b"`, not
the single-spaced normalization `"a b"` the claim requires. -/
theorem claim_C6_cex :
    boomer [] (S "a  b") (fun _ => some none) none 0 = .ok (S "a  b", 0) ∧
    singleSpacedNorm (S "a  b") = S "a b" ∧
    (S "a  b" : PyStr) ≠ S "a b" := by
  refine ⟨by decide, by decide, by decide⟩

/-- C6, amended.  With every algorithm disabled the pipeline returns
the input with leading and trailing whitespace stripped; interior
spacing is preserved, not collapsed.  (Inputs are restricted to
newline-free strings: a newline ending a fragment whose head matches
the punctuation regex would be dropped by the tokenizer.) -/
theorem claim_C6_disabled_identity (vp : List PyStr) (input : PyStr)
    (ov : Overrides) (seed : Option Int) (g : G)
    (hov : ∀ n, ov n = some none) (hnl : '\n' ∉ input) :
    boomer vp input ov seed g = .ok (pyStrip input, g) := by
  have hrun : ∀ g2 : G, boomerRun vp input ov g2 = .ok (pyStrip input, g2) := by
    intro g2
    rw [boomerRun, activeAlgos_disabled hov]
    simp [runTokenAlgos, runTextAlgos, textize_tokenize hnl]
  cases seed with
  | none => exact hrun g
  | some s => simp [boomer, hrun (seedOf s)]

/-- Witness for the amended C6 at a concrete input. -/
theorem claim_C6_disabled_identity_witness :
    boomer [] (S " abc  de ") (fun _ => some none) none 0 =
      .ok (pyStrip (S " abc  de "), 0) :=
  claim_C6_disabled_identity [] (S " abc  de ") (fun _ => some none) none 0
    (fun _ => rfl) (by decide)

/-- C3 counterexample.  A run whose active homophone algorithm has the
weight pair `(0, 0)` completes without any error when no token is
eligible: nothing validates the configuration before or during
processing, so the run returns an output instead of failing. -/
theorem claim_C3_cex :
    boomer [] (S "xyz") cfgMonique00 (some 5) 7 = .ok (S "xyz", 7) := by
  decide

/-- C3, amended.  A `(0, 0)` weight pair is not detected before text
processing: the `ValueError` of the weighted draw surfaces only when
the algorithm actually draws for an eligible token, after tokenization
and mid-processing; a run in which no token passes the filter of the
zero-weighted algorithm completes normally. -/
theorem claim_C3_lazy_error (vp : List PyStr) (input : PyStr)
    (seed : Option Int) (g : G)
    (hne : ∀ t ∈ tokenize (textize (tokenize input)), moniqueFilter t = false) :
    boomer vp input cfgMonique00 seed g =
      .ok (textize (tokenize (textize (tokenize input))), g) ∧
    ∀ (seed2 : Option Int) (g2 : G),
      boomer vp (S "ça") cfgMonique00 seed2 g2 = .error () := by
  constructor
  · have hrun : ∀ g2 : G, boomerRun vp input cfgMonique00 g2 =
        .ok (textize (tokenize (textize (tokenize input))), g2) := by
      intro g2
      have happ : applyWithProb moniqueAlgoI (0, 0)
          (tokenize (textize (tokenize input))) g2 =
          .ok (tokenize (textize (tokenize input)), g2) :=
        applyWithProb_no_eligible g2 hne
      rw [show boomerRun vp input cfgMonique00 g2 = (do
          let x ← runTokenAlgos vp [(.monique, (0, 0))] (tokenize input) g2
          runTextAlgos [] (textize x.1) x.2) from rfl]
      rw [show runTokenAlgos vp [(.monique, (0, 0))] (tokenize input) g2 = (do
          let x ← applyWithProb moniqueAlgoI (0, 0)
            (tokenize (textize (tokenize input))) g2
          runTokenAlgos vp [] x.1 x.2) from rfl]
      rw [happ]
      rfl
    cases seed with
    | none => exact hrun g
    | some s => simp [boomer, hrun (seedOf s)]
  · intro seed2 g2
    have hrun : ∀ g3 : G,
        boomerRun vp (S "ça") cfgMonique00 g3 = .error () := fun g3 => rfl
    cases seed2 with
    | none => exact hrun g2
    | some s => simp [boomer, hrun (seedOf s)]

/-- Witness for the amended C3: the quantified part applied at a
concrete ineligible input. -/
theorem claim_C3_lazy_error_witness :
    boomer [] (S "xyz qrs") cfgMonique00 none 3 =
      .ok (textize (tokenize (textize (tokenize (S "xyz qrs")))), 3) :=
  (claim_C3_lazy_error [] (S "xyz qrs") none 3 (by decide)).1

theorem pyChoice_spec {α : Type} {xs : List α} (g : G) (h : xs ≠ []) :
    ∃ x g2, pyChoice xs g = .ok (x, g2) ∧ x ∈ xs := by
  rw [pyChoice]
  rw [dif_neg (by simpa using h)]
  exact ⟨_, _, rfl, List.get_mem ..⟩

theorem chooseOtherInSet_spec {ss : List PyStr} (item : PyStr) (g : G)
    (h2 : ∃ x ∈ ss, ∃ y ∈ ss, x ≠ y) :
    ∃ x g2, chooseOtherInSet item ss g = .ok (x, g2) ∧ x ∈ ss ∧ x ≠ item := by
  have hne : ss.filter (fun x => x ≠ item) ≠ [] := by
    intro hnil
    rw [List.filter_eq_nil_iff] at hnil
    obtain ⟨x, hx, y, hy, hxy⟩ := h2
    have hx2 := hnil x hx
    have hy2 := hnil y hy
    simp at hx2 hy2
    exact hxy (hx2.trans hy2.symm)
  obtain ⟨x, g2, hch, hmem⟩ := pyChoice_spec g hne
  rw [List.mem_filter] at hmem
  exact ⟨x, g2, hch, hmem.1, by simpa using hmem.2⟩

theorem alainFind_inv {t : Token} {s : PyStr} {ss : List PyStr}
    (h : alainFindSuffixes t = some (s, ss)) :
    ss ∈ alainSuffixSets ∧ s ∈ ss ∧ s.length < t.len ∧
      s.isSuffixOf t.lower = true := by
  obtain ⟨suffixes, hmem, hinner⟩ := List.exists_of_findSome?_eq_some h
  obtain ⟨suffix, hmem2, hif⟩ := List.exists_of_findSome?_eq_some hinner
  by_cases hc : suffix.length < t.len ∧ suffix.isSuffixOf t.lower = true
  · rw [if_pos hc] at hif
    obtain ⟨h1, h2⟩ : suffix = s ∧ suffixes = ss := by simpa using hif
    subst h1; subst h2
    exact ⟨hmem, hmem2, hc.1, hc.2⟩
  · rw [if_neg hc] at hif
    exact absurd hif (by simp)

theorem alainSuffixSets_two_distinct :
    ∀ ss ∈ alainSuffixSets, ∃ x ∈ ss, ∃ y ∈ ss, x ≠ y := by decide

/-- C7 counterexample.  The suffix algorithm neither requires "at
least as long" nor replaces the longest match.  Token `"soleil"` ends
with the known suffixes `"il"` (set 13) and `"eil"` (set 26); the
search returns the first set in declaration order, hence `"il"`, not
the longest `"eil"`.  Token `"er"` equals the known suffix `"er"` yet
is not eligible at all: a match needs the token strictly longer than
the suffix. -/
theorem claim_C7_cex :
    alainFindSuffixes ⟨S "soleil", true⟩ =
      some (S "il", [S "il", S "ils", S "ile", S "iles"]) ∧
    (S "eil") ∈ [S "eil", S "eils", S "eille", S "eilles"] ∧
    [S "eil", S "eils", S "eille", S "eilles"] ∈ alainSuffixSets ∧
    (S "eil").isSuffixOf (Token.lower ⟨S "soleil", true⟩) = true ∧
    (S "il").length < (S "eil").length ∧
    alainFilter ⟨S "er", true⟩ = false ∧
    (S "er").isSuffixOf (Token.lower ⟨S "er", true⟩) = true ∧
    (S "er") ∈ [S "er", S "ez", S "é", S "és", S "ée", S "ées"] ∧
    [S "er", S "ez", S "é", S "és", S "ée", S "ées"] ∈ alainSuffixSets := by
  refine ⟨by decide, by decide, by decide, by decide, by decide, by decide,
    by decide, by decide, by decide⟩

/-- C7, amended.  For every token strictly longer than some known
suffix it ends with, the transform replaces the matched suffix — the
first one found in declaration order, not necessarily the longest —
with another member of the same suffix set. -/
theorem claim_C7_suffix_perm (t : Token) (g : G) (s : PyStr)
    (ss : List PyStr) (h : alainFindSuffixes t = some (s, ss)) :
    s ∈ ss ∧ ss ∈ alainSuffixSets ∧ s.isSuffixOf t.lower = true ∧
    s.length < t.len ∧
    ∃ s2 g2, s2 ∈ ss ∧ s2 ≠ s ∧
      alainTrans t g = .ok (t.replaceSuffix s2 s.length, g2) := by
  obtain ⟨hss, hs, hlen, hsuf⟩ := alainFind_inv h
  obtain ⟨s2, g2, hch, hmem, hne⟩ :=
    chooseOtherInSet_spec s g (alainSuffixSets_two_distinct ss hss)
  refine ⟨hs, hss, hsuf, hlen, s2, g2, hmem, hne, ?_⟩
  simp only [alainTrans, h]
  rw [hch]
  rfl

/-- Witness for the amended C7: the token `"parlement"` matches the
suffix `"ment"`, which is swapped for another member of its set. -/
theorem claim_C7_suffix_perm_witness :
    ∃ s2 g2, s2 ∈ [S "ment", S "mant", S "ments", S "mants"] ∧
      s2 ≠ S "ment" ∧
      alainTrans ⟨S "parlement", true⟩ 0 =
        .ok ((Token.mk (S "parlement") true).replaceSuffix s2
          (S "ment").length, g2) :=
  (claim_C7_suffix_perm ⟨S "parlement", true⟩ 0 (S "ment")
    [S "ment", S "mant", S "ments", S "mants"] (by decide)).2.2.2.2

/-- With an always-true weight pair the inner loop of the phonetic
scan returns the replacement of the first matching source, in declared
order, or nothing when no source matches. -/
theorem yvesFind_pos {n : Nat} (h : 0 < n) (rem : PyStr) (g : G) :
    yvesFind (n, 0) yvesReps rem g =
      if (S "ç").isPrefixOf rem then .ok (some (S "ss", 1), (randNat g).2)
      else if (S "nn").isPrefixOf rem then .ok (some (S "n", 2), (randNat g).2)
      else if (S "tt").isPrefixOf rem then .ok (some (S "t", 2), (randNat g).2)
      else if (S "ss").isPrefixOf rem then .ok (some (S "c", 2), (randNat g).2)
      else .ok (none, g) := by
  rw [show yvesReps = [(S "ç", S "ss"), (S "nn", S "n"), (S "tt", S "t"),
      (S "ss", S "c")] from rfl]
  by_cases h1 : (S "ç").isPrefixOf rem <;>
    by_cases h2 : (S "nn").isPrefixOf rem <;>
      by_cases h3 : (S "tt").isPrefixOf rem <;>
        by_cases h4 : (S "ss").isPrefixOf rem <;>
          simp [yvesFind, h1, h2, h3, h4, randBool_always_true h, S]

/-- C8 counterexample.  The first candidate of the phonetic algorithm
is the single character `"ç"`, not a multi-character sequence, and its
replacement `"ss"` is longer, not shorter: processing `"ç"` with the
coin forced true yields `"ss"`. -/
theorem claim_C8_cex :
    yvesReps.head? = some (S "ç", S "ss") ∧
    (S "ç").length = 1 ∧
    ¬((S "ss").length < (S "ç").length) ∧
    (yvesProc (1, 0) (S "ç") 0).map Prod.fst = .ok (S "ss") := by
  refine ⟨by decide, by decide, by decide, ?_⟩
  have hf : yvesFind (1, 0) yvesReps (S "ç") 0 =
      .ok (some (S "ss", 1), (randNat 0).2) := by
    rw [yvesFind_pos (by decide), if_pos (by decide)]
  have hnil : yvesProc (1, 0) ([] : PyStr) (randNat 0).2 =
      .ok ([], (randNat 0).2) := by
    rw [yvesProc]
  have hstep : yvesProc (1, 0) (S "ç") 0 = .ok (S "ss", (randNat 0).2) := by
    rw [show (S "ç") = 'ç' :: ([] : PyStr) from rfl, yvesProc]
    rw [show ('ç' :: ([] : PyStr)) = S "ç" from rfl, hf]
    simp only [exceptBind_ok]
    simp [hnil]
  rw [hstep]
  rfl

/-- C8, amended.  With the coin forced true the phonetic algorithm
scans left to right: at each position it tests the four fixed sources
ç, nn, tt, ss in declared order; on a match it emits the fixed
replacement (ss, n, t, c respectively — shorter for the digraphs,
longer for ç) and advances past the match, otherwise it copies one
character and advances by one. -/
theorem claim_C8_scan (n : Nat) (h : 0 < n) (s : PyStr) (g : G) :
    (yvesProc (n, 0) s g).map Prod.fst = .ok (yvesSpecScan s) := by
  have main : ∀ (k : Nat) (s : PyStr), s.length ≤ k → ∀ (g : G),
      (yvesProc (n, 0) s g).map Prod.fst = .ok (yvesSpecScan s) := by
    intro k
    induction k with
    | zero =>
      intro s hs g
      rw [List.length_eq_zero.mp (Nat.le_zero.mp hs)]
      rw [show yvesProc (n, 0) ([] : PyStr) g = .ok ([], g) from by
        rw [yvesProc]]
      rw [show yvesSpecScan [] = [] from by rw [yvesSpecScan]]
      rfl
    | succ k ih =>
      intro s hs g
      cases s with
      | nil =>
        rw [show yvesProc (n, 0) ([] : PyStr) g = .ok ([], g) from by
          rw [yvesProc]]
        rw [show yvesSpecScan [] = [] from by rw [yvesSpecScan]]
        rfl
      | cons c rest =>
        rw [show yvesProc (n, 0) (c :: rest) g = (do
            match ← yvesFind (n, 0) yvesReps (c :: rest) g with
            | (some (dst, j), g) => do
              let (out, g) ← yvesProc (n, 0) (rest.drop (j - 1)) g
              .ok (dst ++ out, g)
            | (none, g) => do
              let (out, g) ← yvesProc (n, 0) rest g
              .ok (c :: out, g)) from by rw [yvesProc]]
        rw [yvesFind_pos h]
        rw [show yvesSpecScan (c :: rest) =
            (if (S "ç").isPrefixOf (c :: rest) then
              S "ss" ++ yvesSpecScan rest
            else if (S "nn").isPrefixOf (c :: rest) then
              S "n" ++ yvesSpecScan (rest.drop 1)
            else if (S "tt").isPrefixOf (c :: rest) then
              S "t" ++ yvesSpecScan (rest.drop 1)
            else if (S "ss").isPrefixOf (c :: rest) then
              S "c" ++ yvesSpecScan (rest.drop 1)
            else c :: yvesSpecScan rest) from by rw [yvesSpecScan]]
        have hlen1 : rest.length ≤ k := by simpa using hs
        have hlen2 : (rest.drop 1).length ≤ k := by
          simp only [List.length_drop]
          omega
        by_cases h1 : (S "ç").isPrefixOf (c :: rest)
        · rw [if_pos h1, if_pos h1]
          simp only [exceptBind_ok]
          have := ih rest hlen1 (randNat g).2
          cases hv : yvesProc (n, 0) rest (randNat g).2 with
          | error e => rw [hv] at this; exact absurd this (by simp)
          | ok p =>
            rw [hv] at this
            obtain ⟨out, gf⟩ := p
            simp only [exceptMap_ok, Except.ok.injEq] at this
            simp [hv, this]
        · rw [if_neg h1, if_neg h1]
          by_cases h2 : (S "nn").isPrefixOf (c :: rest)
          · rw [if_pos h2, if_pos h2]
            simp only [exceptBind_ok]
            have := ih (rest.drop 1) hlen2 (randNat g).2
            cases hv : yvesProc (n, 0) (rest.drop 1) (randNat g).2 with
            | error e => rw [hv] at this; exact absurd this (by simp)
            | ok p =>
              rw [hv] at this
              obtain ⟨out, gf⟩ := p
              simp only [exceptMap_ok, Except.ok.injEq] at this
              simp [hv, this]
          · rw [if_neg h2, if_neg h2]
            by_cases h3 : (S "tt").isPrefixOf (c :: rest)
            · rw [if_pos h3, if_pos h3]
              simp only [exceptBind_ok]
              have := ih (rest.drop 1) hlen2 (randNat g).2
              cases hv : yvesProc (n, 0) (rest.drop 1) (randNat g).2 with
              | error e => rw [hv] at this; exact absurd this (by simp)
              | ok p =>
                rw [hv] at this
                obtain ⟨out, gf⟩ := p
                simp only [exceptMap_ok, Except.ok.injEq] at this
                simp [hv, this]
            · rw [if_neg h3, if_neg h3]
              by_cases h4 : (S "ss").isPrefixOf (c :: rest)
              · rw [if_pos h4, if_pos h4]
                simp only [exceptBind_ok]
                have := ih (rest.drop 1) hlen2 (randNat g).2
                cases hv : yvesProc (n, 0) (rest.drop 1) (randNat g).2 with
                | error e => rw [hv] at this; exact absurd this (by simp)
                | ok p =>
                  rw [hv] at this
                  obtain ⟨out, gf⟩ := p
                  simp only [exceptMap_ok, Except.ok.injEq] at this
                  simp [hv, this]
              · rw [if_neg h4, if_neg h4]
                simp only [exceptBind_ok]
                have := ih rest hlen1 g
                cases hv : yvesProc (n, 0) rest g with
                | error e => rw [hv] at this; exact absurd this (by simp)
                | ok p =>
                  rw [hv] at this
                  obtain ⟨out, gf⟩ := p
                  simp only [exceptMap_ok, Except.ok.injEq] at this
                  simp [hv, this]
  exact main s.length s (Nat.le_refl _) g

/-- Witness for the amended C8 at a concrete text. -/
theorem claim_C8_scan_witness :
    (yvesProc (1, 0) (S "ça passe, attention") 0).map Prod.fst =
      .ok (yvesSpecScan (S "ça passe, attention")) :=
  claim_C8_scan 1 (by decide) (S "ça passe, attention") 0

theorem pyRandint_ok {a b : Nat} (h : a ≤ b) (g : G) :
    pyRandint a b g = .ok (a + (randNat g).1 % (b - a + 1), (randNat g).2) := by
  rw [pyRandint, if_neg (by omega)]

theorem moniqueRepSets_two_distinct :
    ∀ ss ∈ moniqueRepSets, ∃ x ∈ ss, ∃ y ∈ ss, x ≠ y := by decide

theorem moniqueStep_total (t : Token) (reps : List PyStr) (g : G)
    (h2 : ∃ x ∈ reps, ∃ y ∈ reps, x ≠ y) :
    ∃ r, moniqueStep t reps g = .ok r := by
  by_cases hm : t.lower ∈ reps
  · obtain ⟨x, g2, hch, -, -⟩ := chooseOtherInSet_spec t.lower g h2
    exact ⟨_, by rw [moniqueStep, if_pos hm, hch]; rfl⟩
  · exact ⟨(t, g), by rw [moniqueStep, if_neg hm]⟩

theorem moniqueTransGo_total :
    ∀ (sets : List (List PyStr)),
      (∀ ss ∈ sets, ∃ x ∈ ss, ∃ y ∈ ss, x ≠ y) →
      ∀ (t : Token) (g : G), ∃ r, moniqueTransGo t g sets = .ok r := by
  intro sets
  induction sets with
  | nil => exact fun _ t g => ⟨(t, g), rfl⟩
  | cons ss rest ih =>
    intro hsets t g
    obtain ⟨⟨t2, g2⟩, hstep⟩ :=
      moniqueStep_total t ss g (hsets ss (List.mem_cons_self ..))
    obtain ⟨r, hr⟩ := ih (fun u hu => hsets u (List.mem_cons_of_mem _ hu)) t2 g2
    refine ⟨r, ?_⟩
    rw [moniqueTransGo, hstep]
    simpa using hr

theorem alainTrans_total (t : Token) (g : G) (hf : alainFilter t = true) :
    ∃ r, alainTrans t g = .ok r := by
  rw [alainFilter] at hf
  obtain ⟨⟨s, ss⟩, hfind⟩ := Option.isSome_iff_exists.mp hf
  obtain ⟨hss, -, -, -⟩ := alainFind_inv hfind
  obtain ⟨s2, g2, hch, -, -⟩ :=
    chooseOtherInSet_spec s g (alainSuffixSets_two_distinct ss hss)
  refine ⟨(t.replaceSuffix s2 s.length, g2), ?_⟩
  simp only [alainTrans, hfind]
  rw [hch]
  rfl

theorem nicoleMatchFrom_alt :
    ∀ (s pre : PyStr) {a alt : PyStr},
      nicoleMatchFrom pre s = some (a, alt) → alt ∈ nicoleAlts := by
  intro s
  induction s with
  | nil =>
    intro pre a alt h
    rw [nicoleMatchFrom] at h
    exact absurd h (by simp)
  | cons c rest ih =>
    intro pre a alt h
    rw [nicoleMatchFrom] at h
    by_cases hc : c = '\n'
    · rw [if_pos hc] at h
      exact absurd h (by simp)
    · rw [if_neg hc] at h
      cases hfind : nicoleAlts.find?
          (fun alt2 => rest = alt2 ∨ rest = alt2 ++ ['\n']) with
      | some alt2 =>
        rw [hfind] at h
        obtain ⟨-, h2⟩ : pre ++ [c] = a ∧ alt2 = alt := by simpa using h
        subst h2
        exact List.mem_of_find?_eq_some hfind
      | none =>
        rw [hfind] at h
        exact ih (pre ++ [c]) h

theorem nicoleFindSuffix_alt {vp : List PyStr} {t : Token} {suf : PyStr}
    (h : nicoleFindSuffix vp t = some suf) : suf ∈ nicoleAlts := by
  rw [nicoleFindSuffix] at h
  cases hm : nicoleMatch t.lower with
  | none => rw [hm] at h; exact absurd h (by simp)
  | some p =>
    obtain ⟨stem, alt⟩ := p
    rw [hm] at h
    have h2 : (if stem ∈ vp then some alt else none) = some suf := h
    by_cases hs : stem ∈ vp
    · rw [if_pos hs] at h2
      obtain rfl : alt = suf := by simpa using h2
      exact nicoleMatchFrom_alt _ _ hm
    · rw [if_neg hs] at h2
      exact absurd h2 (by simp)

theorem nicoleAlts_families : ∀ o ∈ nicoleAlts,
    o ∈ nicolePresent ∨ o ∈ nicoleImperfect ∨ o ∈ nicoleImperfect2 := by
  decide

theorem nicoleFamilies_two_distinct :
    (∃ x ∈ nicolePresent, ∃ y ∈ nicolePresent, x ≠ y) ∧
    (∃ x ∈ nicoleImperfect, ∃ y ∈ nicoleImperfect, x ≠ y) ∧
    (∃ x ∈ nicoleImperfect2, ∃ y ∈ nicoleImperfect2, x ≠ y) := by decide

theorem nicoleFamilies_disjoint :
    (∀ o ∈ nicoleImperfect, o ∉ nicolePresent) ∧
    (∀ o ∈ nicoleImperfect2, o ∉ nicolePresent ∧ o ∉ nicoleImperfect) := by
  decide

theorem nicoleTrans_total (vp : List PyStr) (t : Token) (g : G)
    (hf : nicoleFilter vp t = true) : ∃ r, nicoleTrans vp t g = .ok r := by
  rw [nicoleFilter] at hf
  obtain ⟨suf, hsuf⟩ := Option.isSome_iff_exists.mp hf
  rcases nicoleAlts_families suf (nicoleFindSuffix_alt hsuf) with hp | hi | hi2
  · obtain ⟨x, g2, hch, -, -⟩ :=
      chooseOtherInSet_spec suf g nicoleFamilies_two_distinct.1
    refine ⟨(t.replaceSuffix x suf.length, g2), ?_⟩
    simp only [nicoleTrans, hsuf]
    rw [if_pos hp, hch]
    rfl
  · obtain ⟨x, g2, hch, -, -⟩ :=
      chooseOtherInSet_spec suf g nicoleFamilies_two_distinct.2.1
    refine ⟨(t.replaceSuffix x suf.length, g2), ?_⟩
    simp only [nicoleTrans, hsuf]
    rw [if_neg (nicoleFamilies_disjoint.1 suf hi), if_pos hi, hch]
    rfl
  · obtain ⟨x, g2, hch, -, -⟩ :=
      chooseOtherInSet_spec suf g nicoleFamilies_two_distinct.2.2
    refine ⟨(t.replaceSuffix x suf.length, g2), ?_⟩
    simp only [nicoleTrans, hsuf]
    rw [if_neg (nicoleFamilies_disjoint.2 suf hi2).1,
      if_neg (nicoleFamilies_disjoint.2 suf hi2).2, if_pos hi2, hch]
    rfl

theorem sergeTrans_total (t : Token) (g : G) (hf : sergeFilter t = true) :
    ∃ r, sergeTrans t g = .ok r := by
  rw [sergeFilter] at hf
  obtain ⟨⟨pre, rep⟩, hfind⟩ := Option.isSome_iff_exists.mp hf
  refine ⟨(t.replacePre rep pre.length, g), ?_⟩
  simp only [sergeTrans, hfind]

theorem denisLoop_total (txt : PyStr) :
    ∀ (m : Nat) (g : G), ∃ r, denisLoop txt m g = .ok r := by
  intro m
  induction m with
  | zero => exact fun g => ⟨_, rfl⟩
  | succ m ih =>
    intro g
    obtain ⟨⟨rest, g3⟩, hr⟩ := ih (randNat g).2
    refine ⟨((if 0 + (randNat g).1 % 3 = 0 then [' '] else []) ++ txt ++ rest,
      g3), ?_⟩
    rw [denisLoop, pyRandint_ok (by omega)]
    simp only [exceptBind_ok]
    rw [hr]
    rfl

theorem denisTrans_total (t : Token) (g : G) : ∃ r, denisTrans t g = .ok r := by
  obtain ⟨⟨out, g3⟩, hr⟩ := denisLoop_total t.text (2 + (randNat g).1 % 6)
    (randNat g).2
  refine ⟨({ t with text := out }, g3), ?_⟩
  rw [denisTrans, pyRandint_ok (by omega)]
  simp only [exceptBind_ok]
  rw [hr]
  rfl

theorem chantalTrans_total (t : Token) (g : G) :
    ∃ r, chantalTrans t g = .ok r := by
  obtain ⟨r1, g1, h1, -⟩ :=
    pyChoice_spec g (show [[' '], ([] : PyStr)] ≠ [] by simp)
  obtain ⟨r2, g2, h2, -⟩ :=
    pyChoice_spec g1 (show [[' '], ([] : PyStr)] ≠ [] by simp)
  refine ⟨({ t with
    text := replaceAllChar (replaceAllChar t.text apo r1) '-' r2 }, g2), ?_⟩
  rw [chantalTrans, h1]
  simp only [exceptBind_ok]
  rw [h2]
  rfl

theorem manonTrans_total (t : Token) (g : G) (hf : manonFilter t = true) :
    ∃ r, manonTrans t g = .ok r := by
  have h7 : 7 ≤ t.len := by simpa [manonFilter] using hf
  cases hm : manonTrans t g with
  | ok r => exact ⟨r, rfl⟩
  | error e =>
    rw [manonTrans, pyRandint_ok (by omega)] at hm
    simp at hm

/-- C9.  Every token algorithm has a total transform on the tokens its
filter accepts: in particular the verb-ending transform always lands
in one of its three suffix families (so the unbound-variable branch is
unreachable), and the transposition transform draws from a nonempty
index range on every token of length at least 7. -/
theorem claim_C9_trans_total (vp : List PyStr) (n : AlgoName)
    (a : TokenAlgoI) (t : Token) (g : G) (ha : tokenAlgoOf vp n = some a)
    (hf : a.filter t = true) : ∃ r, a.trans t g = .ok r := by
  cases n with
  | monique =>
    obtain rfl := Option.some.inj ha
    exact moniqueTransGo_total moniqueRepSets moniqueRepSets_two_distinct t g
  | alain =>
    obtain rfl := Option.some.inj ha
    exact alainTrans_total t g hf
  | nicole =>
    obtain rfl := Option.some.inj ha
    exact nicoleTrans_total vp t g hf
  | serge =>
    obtain rfl := Option.some.inj ha
    exact sergeTrans_total t g hf
  | andre =>
    obtain rfl := Option.some.inj ha
    rcases ht : t.text with - | ⟨c, rest⟩
    · exact ⟨(t, g), by simp only [andreAlgoI, andreTrans, ht]⟩
    · exact ⟨({ t with text := pyUpperChar c :: rest }, g),
        by simp only [andreAlgoI, andreTrans, ht]⟩
  | muriel =>
    obtain rfl := Option.some.inj ha
    rcases ht : t.text with - | ⟨c, rest⟩
    · exact ⟨(t, g), by simp only [murielAlgoI, murielTrans, ht]⟩
    · exact ⟨({ t with text := pyLowerChar c :: rest }, g),
        by simp only [murielAlgoI, murielTrans, ht]⟩
  | denis =>
    obtain rfl := Option.some.inj ha
    exact denisTrans_total t g
  | guy =>
    obtain rfl := Option.some.inj ha
    exact ⟨(t, g), rfl⟩
  | chantal =>
    obtain rfl := Option.some.inj ha
    exact chantalTrans_total t g
  | marc =>
    obtain rfl := Option.some.inj ha
    exact ⟨(⟨[], false⟩, g), rfl⟩
  | manon =>
    obtain rfl := Option.some.inj ha
    exact manonTrans_total t g hf
  | sylvain => exact absurd ha (by simp [tokenAlgoOf])
  | josey => exact absurd ha (by simp [tokenAlgoOf])
  | yves => exact absurd ha (by simp [tokenAlgoOf])

/-- Witness for C9: the verb-ending transform on an eligible token. -/
theorem claim_C9_trans_total_witness :
    ∃ r, (nicoleAlgoI [S "march"]).trans ⟨S "marchais", true⟩ 0 = .ok r :=
  claim_C9_trans_total [S "march"] .nicole (nicoleAlgoI [S "march"])
    ⟨S "marchais", true⟩ 0 rfl (by decide)

theorem getLast?_replicate_space (k : Nat) (hk : k ≠ 0) :
    (List.replicate k ' ').getLast? = some ' ' := by
  cases k with
  | zero => exact absurd rfl hk
  | succ m =>
    rw [List.replicate_succ']
    rw [List.getLast?_append_of_ne_nil _ (by simp)]
    rfl

/-- Shape of the space-multiplication output: the empty input gives
the empty output, the head is preserved when it is not a space, and
the last character is preserved unless the input already ended with a
space. -/
theorem sylvainProc_spec {w : Nat × Nat} : ∀ (s : PyStr) (g : G)
    (out : PyStr) (g2 : G), sylvainProc w s g = .ok (out, g2) →
    (s = [] → out = []) ∧
    (∀ c rest, s = c :: rest → c ≠ ' ' → out.head? = some c) ∧
    (s ≠ [] → out ≠ [] ∧
      (out.getLast? = s.getLast? ∨ s.getLast? = some ' ')) := by
  intro s
  induction s with
  | nil =>
    intro g out g2 h
    rw [show sylvainProc w [] g = .ok ([], g) from rfl] at h
    rw [Except.ok.injEq, Prod.mk.injEq] at h
    obtain ⟨rfl, rfl⟩ := h
    exact ⟨fun _ => rfl, by simp, by simp⟩
  | cons c rest ih =>
    intro g out g2 h
    have hstep : sylvainProc w (c :: rest) g = (
        if c = ' ' then do
          let (b, g) ← randBool w g
          if b then do
            let (k, g) ← pyRandint 2 3 g
            let (out, g) ← sylvainProc w rest g
            .ok (List.replicate k ' ' ++ out, g)
          else do
            let (out, g) ← sylvainProc w rest g
            .ok (c :: out, g)
        else do
          let (out, g) ← sylvainProc w rest g
          .ok (c :: out, g)) := by rw [sylvainProc]
    rw [hstep] at h
    clear hstep
    by_cases hc : c = ' '
    · rw [if_pos hc] at h
      cases hb : randBool w g with
      | error e => rw [hb] at h; simp at h
      | ok p =>
        obtain ⟨b, gb⟩ := p
        rw [hb] at h
        simp only [exceptBind_ok] at h
        cases b with
        | true =>
          rw [if_pos rfl, pyRandint_ok (by omega)] at h
          simp only [exceptBind_ok] at h
          cases hrec : sylvainProc w rest (randNat gb).2 with
          | error e => rw [hrec] at h; simp at h
          | ok q =>
            obtain ⟨out3, gf⟩ := q
            rw [hrec] at h
            simp only [exceptBind_ok, Except.ok.injEq, Prod.mk.injEq] at h
            obtain ⟨rfl, rfl⟩ := h
            have hih := ih (randNat gb).2 out3 gf hrec
            refine ⟨by simp, ?_, ?_⟩
            · intro c2 rest2 heq hc2
              obtain ⟨rfl, rfl⟩ : c2 = c ∧ rest2 = rest := by
                simpa using heq.symm
              exact absurd hc hc2
            · intro _hne
              refine ⟨?_, ?_⟩
              · intro hnil
                rw [List.append_eq_nil, List.replicate_eq_nil_iff] at hnil
                omega
              · by_cases hrest : rest = []
                · right
                  rw [hrest, hc]
                  rfl
                · have hr3 := (hih.2.2 hrest).1
                  have hdis := (hih.2.2 hrest).2
                  rw [List.getLast?_append_of_ne_nil _ hr3]
                  rw [show (c :: rest).getLast? = rest.getLast? from
                    List.getLast?_append_of_ne_nil [c] hrest]
                  exact hdis
        | false =>
          rw [if_neg (by simp)] at h
          cases hrec : sylvainProc w rest gb with
          | error e => rw [hrec] at h; simp at h
          | ok q =>
            obtain ⟨out3, gf⟩ := q
            rw [hrec] at h
            simp only [exceptBind_ok, Except.ok.injEq, Prod.mk.injEq] at h
            obtain ⟨rfl, rfl⟩ := h
            have hih := ih gb out3 gf hrec
            refine ⟨by simp, ?_, ?_⟩
            · intro c2 rest2 heq hc2
              obtain ⟨rfl, rfl⟩ : c2 = c ∧ rest2 = rest := by
                simpa using heq.symm
              exact absurd hc hc2
            · intro _hne
              refine ⟨by simp, ?_⟩
              by_cases hrest : rest = []
              · right
                rw [hrest, hc]
                rfl
              · have hr3 := (hih.2.2 hrest).1
                have hdis := (hih.2.2 hrest).2
                rw [show (c :: out3).getLast? = out3.getLast? from
                  List.getLast?_append_of_ne_nil [c] hr3]
                rw [show (c :: rest).getLast? = rest.getLast? from
                  List.getLast?_append_of_ne_nil [c] hrest]
                exact hdis
    · rw [if_neg hc] at h
      cases hrec : sylvainProc w rest g with
      | error e => rw [hrec] at h; simp at h
      | ok q =>
        obtain ⟨out3, gf⟩ := q
        rw [hrec] at h
        simp only [exceptBind_ok, Except.ok.injEq, Prod.mk.injEq] at h
        obtain ⟨rfl, rfl⟩ := h
        have hih := ih g out3 gf hrec
        refine ⟨by simp, ?_, ?_⟩
        · intro c2 rest2 heq hc2
          obtain ⟨rfl, rfl⟩ : c2 = c ∧ rest2 = rest := by simpa using heq.symm
          rfl
        · intro _hne
          refine ⟨by simp, ?_⟩
          by_cases hrest : rest = []
          · left
            have hr3 := hih.1 hrest
            rw [hr3, hrest]
          · have hr3 := (hih.2.2 hrest).1
            have hdis := (hih.2.2 hrest).2
            rw [show (c :: out3).getLast? = out3.getLast? from
              List.getLast?_append_of_ne_nil [c] hr3]
            rw [show (c :: rest).getLast? = rest.getLast? from
              List.getLast?_append_of_ne_nil [c] hrest]
            exact hdis

/-- Shape of the punctuation-injection output: the empty input gives
the empty output, the head character is preserved, and the last
character is either preserved or an inserted comma or period. -/
theorem joseyProc_spec {w : Nat × Nat} : ∀ (s : PyStr) (g : G)
    (out : PyStr) (g2 : G), joseyProc w s g = .ok (out, g2) →
    (s = [] → out = []) ∧
    (∀ c rest, s = c :: rest → out.head? = some c) ∧
    (s ≠ [] → out ≠ [] ∧
      (out.getLast? = s.getLast? ∨ out.getLast? = some ',' ∨
       out.getLast? = some '.')) := by
  intro s
  induction s with
  | nil =>
    intro g out g2 h
    rw [show joseyProc w [] g = .ok ([], g) from rfl] at h
    rw [Except.ok.injEq, Prod.mk.injEq] at h
    obtain ⟨rfl, rfl⟩ := h
    exact ⟨fun _ => rfl, by simp, by simp⟩
  | cons c rest ih =>
    intro g out g2 h
    have hstep : joseyProc w (c :: rest) g = (do
        let (b, g) ← randBool w g
        if b then do
          let (p, g) ← pyChoice [',', '.'] g
          let (out, g) ← joseyProc w rest g
          .ok (c :: p :: out, g)
        else do
          let (out, g) ← joseyProc w rest g
          .ok (c :: out, g)) := by rw [joseyProc]
    rw [hstep] at h
    clear hstep
    cases hb : randBool w g with
    | error e => rw [hb] at h; simp at h
    | ok pb =>
      obtain ⟨b, gb⟩ := pb
      rw [hb] at h
      simp only [exceptBind_ok] at h
      cases b with
      | true =>
        rw [if_pos rfl] at h
        cases hp : pyChoice [',', '.'] gb with
        | error e => rw [hp] at h; simp at h
        | ok pp =>
          obtain ⟨p, gp⟩ := pp
          have hpmem : p ∈ [',', '.'] := by
            obtain ⟨x, gx, hx, hxm⟩ := pyChoice_spec gb
              (show ([',', '.'] : List Char) ≠ [] by simp)
            rw [hp] at hx
            rw [Except.ok.injEq, Prod.mk.injEq] at hx
            obtain ⟨rfl, rfl⟩ := hx
            exact hxm
          rw [hp] at h
          simp only [exceptBind_ok] at h
          cases hrec : joseyProc w rest gp with
          | error e => rw [hrec] at h; simp at h
          | ok q =>
            obtain ⟨out3, gf⟩ := q
            rw [hrec] at h
            simp only [exceptBind_ok, Except.ok.injEq, Prod.mk.injEq] at h
            obtain ⟨rfl, rfl⟩ := h
            have hih := ih gp out3 gf hrec
            refine ⟨by simp, ?_, ?_⟩
            · intro c2 rest2 heq
              obtain ⟨rfl, rfl⟩ : c2 = c ∧ rest2 = rest := by
                simpa using heq.symm
              rfl
            · intro _hne
              refine ⟨by simp, ?_⟩
              by_cases hrest : rest = []
              · have hr3 := hih.1 hrest
                subst hr3
                rcases List.mem_cons.mp hpmem with rfl | hpm
                · right; left
                  rfl
                · right; right
                  obtain rfl : p = '.' := by simpa using hpm
                  rfl
              · have hr3 := (hih.2.2 hrest).1
                have hdis := (hih.2.2 hrest).2
                rw [show (c :: p :: out3).getLast? = out3.getLast? from
                  List.getLast?_append_of_ne_nil [c, p] hr3]
                rw [show (c :: rest).getLast? = rest.getLast? from
                  List.getLast?_append_of_ne_nil [c] hrest]
                exact hdis
      | false =>
        rw [if_neg (by simp)] at h
        cases hrec : joseyProc w rest gb with
        | error e => rw [hrec] at h; simp at h
        | ok q =>
          obtain ⟨out3, gf⟩ := q
          rw [hrec] at h
          simp only [exceptBind_ok, Except.ok.injEq, Prod.mk.injEq] at h
          obtain ⟨rfl, rfl⟩ := h
          have hih := ih gb out3 gf hrec
          refine ⟨by simp, ?_, ?_⟩
          · intro c2 rest2 heq
            obtain ⟨rfl, rfl⟩ : c2 = c ∧ rest2 = rest := by
              simpa using heq.symm
            rfl
          · intro _hne
            refine ⟨by simp, ?_⟩
            by_cases hrest : rest = []
            · left
              have hr3 := hih.1 hrest
              rw [hr3, hrest]
            · have hr3 := (hih.2.2 hrest).1
              have hdis := (hih.2.2 hrest).2
              rw [show (c :: out3).getLast? = out3.getLast? from
                List.getLast?_append_of_ne_nil [c] hr3]
              rw [show (c :: rest).getLast? = rest.getLast? from
                List.getLast?_append_of_ne_nil [c] hrest]
              exact hdis

theorem yvesFind_inv {w : Nat × Nat} : ∀ (reps : List (PyStr × PyStr))
    (rem : PyStr) (g : G) {dst : PyStr} {k : Nat} {g2 : G},
    yvesFind w reps rem g = .ok (some (dst, k), g2) →
    ∃ src, (src, dst) ∈ reps ∧ src.isPrefixOf rem = true ∧ k = src.length := by
  intro reps
  induction reps with
  | nil =>
    intro rem g dst k g2 h
    rw [yvesFind] at h
    simp at h
  | cons sd reps ih =>
    intro rem g dst k g2 h
    obtain ⟨src0, dst0⟩ := sd
    rw [yvesFind] at h
    by_cases hpre : src0.isPrefixOf rem
    · rw [if_pos hpre] at h
      cases hb : randBool w g with
      | error e => rw [hb] at h; simp at h
      | ok pb =>
        obtain ⟨b, gb⟩ := pb
        rw [hb] at h
        simp only [exceptBind_ok] at h
        cases b with
        | true =>
          rw [if_pos rfl] at h
          obtain ⟨⟨h1, h2⟩, h3⟩ : (dst0 = dst ∧ src0.length = k) ∧ gb = g2 := by
            simpa using h
          subst h1
          exact ⟨src0, List.mem_cons_self .., hpre, h2.symm⟩
        | false =>
          rw [if_neg (by simp)] at h
          obtain ⟨src, hm, hp, hk⟩ := ih rem gb h
          exact ⟨src, List.mem_cons_of_mem _ hm, hp, hk⟩
    · rw [if_neg hpre] at h
      obtain ⟨src, hm, hp, hk⟩ := ih rem g h
      exact ⟨src, List.mem_cons_of_mem _ hm, hp, hk⟩

theorem yvesReps_facts : ∀ p ∈ yvesReps, 1 ≤ p.1.length ∧ p.2 ≠ [] ∧
    (p.2.head? = some 's' ∨ p.2.head? = some 'n' ∨ p.2.head? = some 't' ∨
      p.2.head? = some 'c') ∧
    (p.2.getLast? = some 's' ∨ p.2.getLast? = some 'n' ∨
      p.2.getLast? = some 't' ∨ p.2.getLast? = some 'c') := by decide

/-- Shape of the phonetic-substitution output: the empty input gives
the empty output, the head is either the copied input head or the
first character of a replacement, and the last character is either the
input last or the last character of a replacement. -/
theorem yvesProc_spec {w : Nat × Nat} : ∀ (m : Nat) (s : PyStr),
    s.length ≤ m → ∀ (g : G) (out : PyStr) (g2 : G),
    yvesProc w s g = .ok (out, g2) →
    (s = [] → out = []) ∧
    (∀ c rest, s = c :: rest → out.head? = some c ∨ out.head? = some 's' ∨
      out.head? = some 'n' ∨ out.head? = some 't' ∨ out.head? = some 'c') ∧
    (s ≠ [] → out ≠ [] ∧
      (out.getLast? = s.getLast? ∨ out.getLast? = some 's' ∨
       out.getLast? = some 'n' ∨ out.getLast? = some 't' ∨
       out.getLast? = some 'c')) := by
  intro m
  induction m with
  | zero =>
    intro s hs g out g2 h
    obtain rfl := List.length_eq_zero.mp (Nat.le_zero.mp hs)
    rw [show yvesProc w [] g = .ok ([], g) from by rw [yvesProc]] at h
    rw [Except.ok.injEq, Prod.mk.injEq] at h
    obtain ⟨rfl, rfl⟩ := h
    exact ⟨fun _ => rfl, by simp, by simp⟩
  | succ m ihm =>
    intro s hs g out g2 h
    cases s with
    | nil =>
      rw [show yvesProc w [] g = .ok ([], g) from by rw [yvesProc]] at h
      rw [Except.ok.injEq, Prod.mk.injEq] at h
      obtain ⟨rfl, rfl⟩ := h
      exact ⟨fun _ => rfl, by simp, by simp⟩
    | cons c rest =>
      rw [show yvesProc w (c :: rest) g = (do
          match ← yvesFind w yvesReps (c :: rest) g with
          | (some (dst, j), g) => do
            let (out, g) ← yvesProc w (rest.drop (j - 1)) g
            .ok (dst ++ out, g)
          | (none, g) => do
            let (out, g) ← yvesProc w rest g
            .ok (c :: out, g)) from by rw [yvesProc]] at h
      cases hf : yvesFind w yvesReps (c :: rest) g with
      | error e => rw [hf] at h; simp at h
      | ok pf =>
        obtain ⟨res, gf⟩ := pf
        rw [hf] at h
        simp only [exceptBind_ok] at h
        cases res with
        | none =>
          have h2 : (do
              let (out4, g4) ← yvesProc w rest gf
              (Except.ok (c :: out4, g4) : Except Unit (PyStr × G))) =
              .ok (out, g2) := h
          cases hrec : yvesProc w rest gf with
          | error e => rw [hrec] at h2; simp at h2
          | ok q =>
            obtain ⟨out3, g3⟩ := q
            rw [hrec] at h2
            simp only [exceptBind_ok, Except.ok.injEq, Prod.mk.injEq] at h2
            obtain ⟨rfl, rfl⟩ := h2
            have hlen : rest.length ≤ m := by
              have := hs
              simp only [List.length_cons] at this
              omega
            have hih := ihm rest hlen gf out3 g3 hrec
            refine ⟨by simp, ?_, ?_⟩
            · intro c2 rest2 heq
              obtain ⟨rfl, rfl⟩ : c2 = c ∧ rest2 = rest := by
                simpa using heq.symm
              exact Or.inl rfl
            · intro _hne
              refine ⟨by simp, ?_⟩
              by_cases hrest : rest = []
              · left
                have hr3 := hih.1 hrest
                rw [hr3, hrest]
              · have hr3 := (hih.2.2 hrest).1
                have hdis := (hih.2.2 hrest).2
                rw [show (c :: out3).getLast? = out3.getLast? from
                  List.getLast?_append_of_ne_nil [c] hr3]
                rw [show (c :: rest).getLast? = rest.getLast? from
                  List.getLast?_append_of_ne_nil [c] hrest]
                exact hdis
        | some p =>
          obtain ⟨dst, k⟩ := p
          obtain ⟨src, hmem, hpre, hk⟩ := yvesFind_inv yvesReps (c :: rest) g hf
          have hfact := yvesReps_facts (src, dst) hmem
          have h2 : (do
              let (out4, g4) ← yvesProc w (rest.drop (k - 1)) gf
              (Except.ok (dst ++ out4, g4) : Except Unit (PyStr × G))) =
              .ok (out, g2) := h
          cases hrec : yvesProc w (rest.drop (k - 1)) gf with
          | error e => rw [hrec] at h2; simp at h2
          | ok q =>
            obtain ⟨out3, g3⟩ := q
            rw [hrec] at h2
            simp only [exceptBind_ok, Except.ok.injEq, Prod.mk.injEq] at h2
            obtain ⟨rfl, rfl⟩ := h2
            have hlen : (rest.drop (k - 1)).length ≤ m := by
              have := hs
              simp only [List.length_cons] at this
              simp only [List.length_drop]
              omega
            have hih := ihm (rest.drop (k - 1)) hlen gf out3 g3 hrec
            refine ⟨by simp, ?_, ?_⟩
            · intro c2 rest2 heq
              have hor : (dst ++ out3).head? = dst.head? := by
                rw [List.head?_append ..]
                rcases hfact.2.2.1 with hh | hh | hh | hh <;> rw [hh] <;> rfl
              rcases hfact.2.2.1 with hh | hh | hh | hh
              · exact Or.inr (Or.inl (hor.trans hh))
              · exact Or.inr (Or.inr (Or.inl (hor.trans hh)))
              · exact Or.inr (Or.inr (Or.inr (Or.inl (hor.trans hh))))
              · exact Or.inr (Or.inr (Or.inr (Or.inr (hor.trans hh))))
            · intro _hne
              refine ⟨by simp [hfact.2.1], ?_⟩
              by_cases hrem : rest.drop (k - 1) = []
              · have ho3 := hih.1 hrem
                subst ho3
                rw [List.append_nil]
                rcases hfact.2.2.2 with hh | hh | hh | hh
                · exact Or.inr (Or.inl hh)
                · exact Or.inr (Or.inr (Or.inl hh))
                · exact Or.inr (Or.inr (Or.inr (Or.inl hh)))
                · exact Or.inr (Or.inr (Or.inr (Or.inr hh)))
              · have h3ne := (hih.2.2 hrem).1
                have hdis := (hih.2.2 hrem).2
                rw [List.getLast?_append_of_ne_nil _ h3ne]
                have hslast : (c :: rest).getLast? =
                    (rest.drop (k - 1)).getLast? := by
                  conv_lhs => rw [show c :: rest =
                    (c :: rest.take (k - 1)) ++ rest.drop (k - 1) from by
                      rw [List.cons_append, List.take_append_drop]]
                  rw [List.getLast?_append_of_ne_nil _ hrem]
                rw [hslast]
                rcases hdis with hd | hd | hd | hd | hd
                · exact Or.inl hd
                · exact Or.inr (Or.inl hd)
                · exact Or.inr (Or.inr (Or.inl hd))
                · exact Or.inr (Or.inr (Or.inr (Or.inl hd)))
                · exact Or.inr (Or.inr (Or.inr (Or.inr hd)))

theorem sylvainProc_noEdge {w : Nat × Nat} {s : PyStr} {g : G} {out : PyStr}
    {g2 : G} (h : sylvainProc w s g = .ok (out, g2)) (hs : NoEdgeWs s) :
    NoEdgeWs out := by
  obtain ⟨hs1, hs2⟩ := hs
  have hspec := sylvainProc_spec s g out g2 h
  cases s with
  | nil =>
    have hout := hspec.1 rfl
    subst hout
    exact ⟨by simp, by simp⟩
  | cons c rest =>
    have hcne : c ≠ ' ' := by
      intro hc
      have hsp := hs1 c rfl
      rw [hc] at hsp
      simp [pyIsSpace] at hsp
    constructor
    · intro c2 hc2
      have hh := hspec.2.1 c rest rfl hcne
      rw [hh] at hc2
      obtain rfl : c = c2 := by simpa using hc2
      exact hs1 c rfl
    · intro c2 hc2
      have h3 := hspec.2.2 (by simp)
      rcases h3.2 with hd | hd
      · rw [hd] at hc2
        exact hs2 c2 hc2
      · have hsp := hs2 ' ' hd
        simp [pyIsSpace] at hsp

theorem joseyProc_noEdge {w : Nat × Nat} {s : PyStr} {g : G} {out : PyStr}
    {g2 : G} (h : joseyProc w s g = .ok (out, g2)) (hs : NoEdgeWs s) :
    NoEdgeWs out := by
  obtain ⟨hs1, hs2⟩ := hs
  have hspec := joseyProc_spec s g out g2 h
  cases s with
  | nil =>
    have hout := hspec.1 rfl
    subst hout
    exact ⟨by simp, by simp⟩
  | cons c rest =>
    constructor
    · intro c2 hc2
      have hh := hspec.2.1 c rest rfl
      rw [hh] at hc2
      obtain rfl : c = c2 := by simpa using hc2
      exact hs1 c rfl
    · intro c2 hc2
      have h3 := hspec.2.2 (by simp)
      rcases h3.2 with hd | hd | hd
      · rw [hd] at hc2
        exact hs2 c2 hc2
      · rw [hd] at hc2
        obtain rfl : ',' = c2 := by simpa using hc2
        decide
      · rw [hd] at hc2
        obtain rfl : '.' = c2 := by simpa using hc2
        decide

theorem yvesProc_noEdge {w : Nat × Nat} {s : PyStr} {g : G} {out : PyStr}
    {g2 : G} (h : yvesProc w s g = .ok (out, g2)) (hs : NoEdgeWs s) :
    NoEdgeWs out := by
  obtain ⟨hs1, hs2⟩ := hs
  have hspec := yvesProc_spec s.length s (Nat.le_refl _) g out g2 h
  cases s with
  | nil =>
    have hout := hspec.1 rfl
    subst hout
    exact ⟨by simp, by simp⟩
  | cons c rest =>
    constructor
    · intro c2 hc2
      rcases hspec.2.1 c rest rfl with hh | hh | hh | hh | hh <;>
        rw [hh] at hc2
      · obtain rfl : c = c2 := by simpa using hc2
        exact hs1 c rfl
      · obtain rfl : 's' = c2 := by simpa using hc2
        decide
      · obtain rfl : 'n' = c2 := by simpa using hc2
        decide
      · obtain rfl : 't' = c2 := by simpa using hc2
        decide
      · obtain rfl : 'c' = c2 := by simpa using hc2
        decide
    · intro c2 hc2
      have h3 := hspec.2.2 (by simp)
      rcases h3.2 with hd | hd | hd | hd | hd <;> rw [hd] at hc2
      · exact hs2 c2 hc2
      · obtain rfl : 's' = c2 := by simpa using hc2
        decide
      · obtain rfl : 'n' = c2 := by simpa using hc2
        decide
      · obtain rfl : 't' = c2 := by simpa using hc2
        decide
      · obtain rfl : 'c' = c2 := by simpa using hc2
        decide

theorem textProcFor_noEdge {n : AlgoName} {w : Nat × Nat} {s : PyStr} {g : G}
    {out : PyStr} {g2 : G} (h : textProcFor n w s g = .ok (out, g2))
    (hs : NoEdgeWs s) : NoEdgeWs out := by
  cases n <;> first
    | exact sylvainProc_noEdge h hs
    | exact joseyProc_noEdge h hs
    | exact yvesProc_noEdge h hs
    | · obtain ⟨rfl, rfl⟩ : s = out ∧ g = g2 := by
          simpa [textProcFor] using h
        exact hs

theorem runTextAlgos_noEdge : ∀ (l : List (AlgoName × (Nat × Nat)))
    (s : PyStr) (g : G) (out : PyStr) (g2 : G),
    runTextAlgos l s g = .ok (out, g2) → NoEdgeWs s → NoEdgeWs out := by
  intro l
  induction l with
  | nil =>
    intro s g out g2 h hs
    rw [show runTextAlgos [] s g = .ok (s, g) from rfl] at h
    obtain ⟨rfl, rfl⟩ : s = out ∧ g = g2 := by simpa using h
    exact hs
  | cons nw rest ih =>
    intro s g out g2 h hs
    obtain ⟨n, w⟩ := nw
    have hstep : runTextAlgos ((n, w) :: rest) s g = (do
        let (s2, g) ← textProcFor n w s g
        runTextAlgos rest s2 g) := by rw [runTextAlgos]
    rw [hstep] at h
    cases hp : textProcFor n w s g with
    | error e => rw [hp] at h; simp at h
    | ok q =>
      obtain ⟨s2, gb⟩ := q
      rw [hp] at h
      simp only [exceptBind_ok] at h
      exact ih s2 gb out g2 h (textProcFor_noEdge hp hs)

/-- C10.  Whatever the input, configuration and seed, a successful run
of the pipeline entry point returns a string with no leading and no
trailing whitespace: the final detokenization strips both ends, and
none of the three text-stage algorithms can introduce an edge space. -/
theorem claim_C10_no_edge_ws (vp : List PyStr) (input : PyStr)
    (ov : Overrides) (seed : Option Int) (g : G) (out : PyStr) (g2 : G)
    (h : boomer vp input ov seed g = .ok (out, g2)) : NoEdgeWs out := by
  have hrun : ∃ g3 g4, boomerRun vp input ov g3 = .ok (out, g4) := by
    cases seed with
    | none => exact ⟨g, g2, h⟩
    | some sd =>
      rw [boomer] at h
      cases hb : boomerRun vp input ov (seedOf sd) with
      | error e => rw [hb] at h; simp at h
      | ok p =>
        obtain ⟨o, gf⟩ := p
        rw [hb] at h
        obtain ⟨rfl, rfl⟩ : o = out ∧ g = g2 := by simpa using h
        exact ⟨seedOf sd, gf, hb⟩
  obtain ⟨g3, g4, hrun⟩ := hrun
  rw [show boomerRun vp input ov g3 = (do
      let x ← runTokenAlgos vp
        ((activeAlgos ov).filter (fun p => !isTextName p.1))
        (tokenize input) g3
      runTextAlgos ((activeAlgos ov).filter (fun p => isTextName p.1))
        (textize x.1) x.2) from rfl] at hrun
  cases ht : runTokenAlgos vp
      ((activeAlgos ov).filter (fun p => !isTextName p.1))
      (tokenize input) g3 with
  | error e => rw [ht] at hrun; simp at hrun
  | ok q =>
    rw [ht] at hrun
    simp only [exceptBind_ok] at hrun
    exact runTextAlgos_noEdge _ _ _ _ _ hrun (noEdgeWs_pyStrip _)

/-- Witness for C10 at a concrete run. -/
theorem claim_C10_no_edge_ws_witness : NoEdgeWs (S "a") :=
  claim_C10_no_edge_ws [] (S "a") (fun _ => some none) none 0 (S "a") 0
    (by decide)

end Boomer
